import Mathlib

/-!
# Identifier index of `Atom` (LAMMPS `src/atom.h`)

A shallow embedding of the global-to-local identifier map declared in
`atom.h`, together with the operations that maintain it.

* `Atom::map`, the getters `get_map_array`, `get_map_size`,
  `get_map_maxarray` and the data layout (`map_array`, `HashElem`,
  `map_bucket`, `map_hash`, the callback lists, ...) are translated from the
  header.
* The header only *declares* `map_find_hash`, `map_one`, `map_style_set`,
  `map_init`, `map_set`, `map_delete`, `sort` and `add_callback`; their
  bodies are modelled from the design document and every such definition
  says so in its doc comment.

C arrays are lists indexed by integers; a read or write outside the
allocation has no result (`none`).  The same `none` is used for a loop that
exhausts its fuel and for a fatal error, so `some v` always means "the call
returned `v`".  Identifiers, slots and links are integers (they hold the
sentinel -1); counts of particles, bins and callbacks are natural numbers.
-/

namespace LAMMPS_NS

/-! ## Memory -/

/-- Read of `a[i]` for a C array modelled by a list: defined only inside the
allocation. -/
def readAt {α : Type} (a : List α) (i : Int) : Option α :=
  if 0 ≤ i then a[i.toNat]? else none

/-- Write `a[i] = v` for a C array modelled by a list: defined only inside
the allocation. -/
def writeAt {α : Type} (a : List α) (i : Int) (v : α) : Option (List α) :=
  if 0 ≤ i ∧ i.toNat < a.length then some (a.set i.toNat v) else none

/-! ## Data model (from `atom.h`) -/

/-- The struct `HashElem` of `atom.h`: one entry of the hashed map.  The
field called `local` in the header is `local_` here. -/
structure HashElem where
  /-- key to search on = global ID -/
  global : Int
  /-- value associated with key = local index -/
  local_ : Int
  /-- next entry in this bucket, -1 if last -/
  next : Int
deriving DecidableEq

/-- The members of `class Atom` that the identifier map, the callback
registry and the spatial sort use. -/
structure Atom where
  /-- number of owned atoms on this rank -/
  nlocal : Nat := 0
  /-- atom-IDs array -/
  tag : List Int := []
  /-- atom types array (a per-atom attribute array) -/
  type : List Int := []
  /-- group bitmap array (a per-atom attribute array) -/
  mask : List Int := []
  /-- number of callbacks of each kind -/
  nextra_grow : Nat := 0
  nextra_restart : Nat := 0
  nextra_border : Nat := 0
  /-- index of fix to call back to, one list per kind -/
  extra_grow : List Int := []
  extra_restart : List Int := []
  extra_border : List Int := []
  /-- allocated size of the callback lists -/
  nextra_grow_max : Nat := 0
  nextra_restart_max : Nat := 0
  nextra_border_max : Nat := 0
  /-- style of atom map: 0=none, 1=array, 2=hash -/
  map_style : Int := 0
  /-- user requested map style: 0 = no request, 1=array, 2=hash, 3=yes -/
  map_user : Int := 0
  /-- max atom ID that map() is setup for -/
  map_tag_max : Int := -1
  /-- direct map via array that holds map_tag_max -/
  map_array : List Int := []
  /-- allocated size of map_array (1 larger than this) -/
  map_maxarray : Int := -1
  /-- number of entries hash table can hold -/
  map_nhash : Int := -1
  /-- number of actual entries in hash table -/
  map_nused : Int := 0
  /-- ptr to 1st unused entry in hash table -/
  map_free : Int := -1
  /-- number of hash buckets -/
  map_nbucket : Int := 0
  /-- ptr to 1st entry in each bucket -/
  map_bucket : List Int := []
  /-- hash table -/
  map_hash : List HashElem := []
  /-- number of sorting bins -/
  nbins : Nat := 0
  /-- 1st atom in each bin -/
  binhead : List Int := []
  /-- next atom in bin -/
  next : List Int := []
  /-- permutation vector -/
  permute : List Int := []
deriving DecidableEq

/-! ## Lookup (from `atom.h`) -/

/-- Modelled from the spec: the body of `Atom::map_find_hash` is not in the
header.  It is the chain walk of the sparse strategy ("open hashing into a
bucket table ..., collision resolution via chained buckets"): follow the
`next` links of bucket `global % map_nbucket`, starting at `index`, until an
entry with key `global` is found (its `local` is returned) or the chain ends
(-1 is returned).  `fuel` bounds the number of entries visited. -/
def map_find_loop (hash : List HashElem) (global : Int) : Nat → Int → Option Int
  | 0, _ => none
  | fuel + 1, index =>
    if index > -1 then
      match readAt hash index with
      | none => none
      | some e =>
        if e.global = global then some e.local_
        else map_find_loop hash global fuel e.next
    else some (-1)

/-- Modelled from the spec: the bucket of an identifier, `global %
map_nbucket` with the truncating remainder of C; undefined without
buckets. -/
def map_ibucket (s : Atom) (global : Int) : Option Int :=
  if s.map_nbucket = 0 then none else some (Int.tmod global s.map_nbucket)

/-- Modelled from the spec: `Atom::map_find_hash` (declared in `atom.h`,
body absent), the lookup of the sparse strategy: read the head of the
identifier's bucket and walk the chain.  A chain of a table with
`map_hash.length` entries has at most that many links, which is the fuel. -/
def map_find_hash (s : Atom) (global : Int) : Option Int :=
  match map_ibucket s global with
  | none => none
  | some ibucket =>
    match readAt s.map_bucket ibucket with
    | none => none
    | some index => map_find_loop s.map_hash global (s.map_hash.length + 1) index

/-- `Atom::map` of `atom.h`:
`if (map_style == 1) return map_array[global];
 else if (map_style == 2) return map_find_hash(global);
 else return -1;` -/
def map (s : Atom) (global : Int) : Option Int :=
  if s.map_style = 1 then readAt s.map_array global
  else if s.map_style = 2 then map_find_hash s global
  else some (-1)

/-- `Atom::map` as a call on the object: the result together with the object
after the call.  No branch of the body assigns to a member. -/
def map_call (s : Atom) (global : Int) : Option Int × Atom :=
  if s.map_style = 1 then (readAt s.map_array global, s)
  else if s.map_style = 2 then (map_find_hash s global, s)
  else (some (-1), s)

/-- The value of an integer expression as a 32-bit `int`, the return type of
the getters (two's complement wrap-around). -/
def wrap_int (x : Int) : Int := (x + 2 ^ 31) % 2 ^ 32 - 2 ^ 31

/-- `get_map_array()` of `atom.h`: `return map_array;`. -/
def get_map_array (s : Atom) : List Int := s.map_array

/-- `get_map_size()` of `atom.h`: `return map_tag_max+1;`, an `int`. -/
def get_map_size (s : Atom) : Int := wrap_int (s.map_tag_max + 1)

/-- `get_map_maxarray()` of `atom.h`: `return map_maxarray+1;`, an `int`. -/
def get_map_maxarray (s : Atom) : Int := wrap_int (s.map_maxarray + 1)

/-! ## Incremental maintenance (modelled from the design document) -/

/-- Modelled from the spec: the key search shared by insertion and removal
in the sparse strategy (bodies absent from `atom.h`).  Walks the chain that
starts at `index`, remembering the entry visited before (`previous`, -1 at
the head of the bucket); stops at the entry whose key is `global` or at the
end of the chain and returns `(previous, index)`. -/
def map_search_loop (hash : List HashElem) (global : Int) :
    Nat → Int → Int → Option (Int × Int)
  | 0, _, _ => none
  | fuel + 1, previous, index =>
    if index > -1 then
      match readAt hash index with
      | none => none
      | some e =>
        if e.global = global then some (previous, index)
        else map_search_loop hash global fuel index e.next
    else some (previous, index)

/-- Modelled from the spec: the sparse branch of `insert(id, slot)`: "inserts
a chained entry ... using an explicit free-list of entry slots".  If the key
is already in its bucket the slot is overwritten; otherwise the first entry
of the free list is taken and linked at the end of the bucket chain.  There
is no result when the free list is empty. -/
def map_one_hash (s : Atom) (global : Int) (local_ : Int) : Option Atom :=
  match map_ibucket s global with
  | none => none
  | some ibucket =>
    match readAt s.map_bucket ibucket with
    | none => none
    | some head =>
      match map_search_loop s.map_hash global (s.map_hash.length + 1) (-1) head with
      | none => none
      | some (previous, index) =>
        if index > -1 then
          match readAt s.map_hash index with
          | none => none
          | some e =>
            match writeAt s.map_hash index { e with local_ := local_ } with
            | none => none
            | some hash => some { s with map_hash := hash }
        else
          match readAt s.map_hash s.map_free with
          | none => none
          | some f =>
            let fresh : HashElem := { global := global, local_ := local_, next := -1 }
            if previous = -1 then
              match writeAt s.map_bucket ibucket s.map_free with
              | none => none
              | some bucket =>
                match writeAt s.map_hash s.map_free fresh with
                | none => none
                | some hash =>
                  some { s with map_bucket := bucket, map_hash := hash,
                                map_free := f.next, map_nused := s.map_nused + 1 }
            else
              match readAt s.map_hash previous with
              | none => none
              | some p =>
                match writeAt s.map_hash previous { p with next := s.map_free } with
                | none => none
                | some hash1 =>
                  match writeAt hash1 s.map_free fresh with
                  | none => none
                  | some hash =>
                    some { s with map_hash := hash,
                                  map_free := f.next, map_nused := s.map_nused + 1 }

/-- Modelled from the spec: `Atom::map_one(tagint, int)` (declared in
`atom.h`, body absent), the `insert(id, slot)` of the identifier index: "for
the dense strategy this is a direct store; for the sparse strategy this
inserts ... a chained entry".  Without an index (style 0) there is nothing
to insert into. -/
def map_one (s : Atom) (global : Int) (local_ : Int) : Option Atom :=
  if s.map_style = 1 then
    match writeAt s.map_array global local_ with
    | none => none
    | some a => some { s with map_array := a }
  else if s.map_style = 2 then map_one_hash s global local_
  else none

/-- Modelled from the spec: the sparse branch of `remove(id)`: "removing a
mid-chain entry relinks predecessor to successor; the implementation
reclaims the freed entry onto the free-list for reuse".  Removing a key that
is not in the table changes nothing. -/
def map_remove_hash (s : Atom) (global : Int) : Option Atom :=
  match map_ibucket s global with
  | none => none
  | some ibucket =>
    match readAt s.map_bucket ibucket with
    | none => none
    | some head =>
      match map_search_loop s.map_hash global (s.map_hash.length + 1) (-1) head with
      | none => none
      | some (previous, index) =>
        if index > -1 then
          match readAt s.map_hash index with
          | none => none
          | some e =>
            if previous = -1 then
              match writeAt s.map_bucket ibucket e.next with
              | none => none
              | some bucket =>
                match writeAt s.map_hash index { e with next := s.map_free } with
                | none => none
                | some hash =>
                  some { s with map_bucket := bucket, map_hash := hash,
                                map_free := index, map_nused := s.map_nused - 1 }
            else
              match readAt s.map_hash previous with
              | none => none
              | some p =>
                match writeAt s.map_hash previous { p with next := e.next } with
                | none => none
                | some hash1 =>
                  match writeAt hash1 index { e with next := s.map_free } with
                  | none => none
                  | some hash =>
                    some { s with map_hash := hash,
                                  map_free := index, map_nused := s.map_nused - 1 }
        else some s

/-- Modelled from the spec: `remove(id)` of the identifier index (the header
declares no function of its own for it): "for the dense strategy this is a
direct store" of the absent value -1; "for the sparse strategy this ...
removes a chained entry". -/
def map_remove (s : Atom) (global : Int) : Option Atom :=
  if s.map_style = 1 then
    match writeAt s.map_array global (-1) with
    | none => none
    | some a => some { s with map_array := a }
  else if s.map_style = 2 then map_remove_hash s global
  else none

/-- One incremental maintenance operation on the identifier index. -/
inductive MapOp where
  /-- `map_one(global, local)` -/
  | insert (global : Int) (local_ : Int)
  /-- `remove(global)` -/
  | remove (global : Int)
deriving DecidableEq

/-- The identifier an operation is about. -/
def MapOp.id : MapOp → Int
  | .insert g _ => g
  | .remove g => g

/-- Apply one maintenance operation. -/
def map_apply (s : Atom) : MapOp → Option Atom
  | .insert g l => map_one s g l
  | .remove g => map_remove s g

/-- Apply a sequence of maintenance operations, first to last. -/
def map_run (s : Atom) : List MapOp → Option Atom
  | [] => some s
  | op :: ops =>
    match map_apply s op with
    | none => none
    | some s1 => map_run s1 ops


/-! ## Rebuild (modelled from the design document) -/

/-- Modelled from the spec: the sizing policy of the identifier index, which
the header does not contain.  "Strategy selection: if the maximum live
identifier value is within a small constant factor of the number of owned
particles, use the dense-array strategy ... this is a policy decision
exposed as a configuration threshold"; the sparse table is "sized to the next
prime ≥ a load-factor-driven target". -/
structure MapPolicy where
  /-- dense strategy when `map_tag_max ≤ dense_factor * nlocal` -/
  dense_factor : Int
  /-- number of table entries allocated for a number of owned particles -/
  nhash : Nat → Nat
  /-- number of buckets chosen for a number of table entries -/
  nbucket : Nat → Nat

/-- Modelled from the spec: `Atom::map_style_set()` (declared in `atom.h`,
body absent).  Records the maximum identifier of the owned slots (-1 without
owned slots) in `map_tag_max` and selects the strategy: the user's request
when `map_user` is 1 (array) or 2 (hash), the policy threshold otherwise.
Returns the new object and whether the strategy changed. -/
def map_style_set (pol : MapPolicy) (s : Atom) : Option (Atom × Bool) :=
  if s.tag.length < s.nlocal then none
  else
    let map_tag_max := (s.tag.take s.nlocal).foldl max (-1)
    let style : Int :=
      if s.map_user = 1 ∨ s.map_user = 2 then s.map_user
      else if map_tag_max ≤ pol.dense_factor * (s.nlocal : Int) then 1 else 2
    some ({ s with map_tag_max := map_tag_max, map_style := style },
          decide (style ≠ s.map_style))

/-- Modelled from the spec: `Atom::map_delete()` (declared in `atom.h`, body
absent), the `clear()` of the identifier index: "releases structure without
destroying registered callbacks or array contents — indices only". -/
def map_delete (s : Atom) : Atom :=
  { s with map_array := [], map_maxarray := -1, map_bucket := [], map_hash := [],
           map_nhash := 0, map_nbucket := 0, map_nused := 0, map_free := -1 }

/-- Put the entries `i, i+1, ...` of a table of `n` entries on the free
list: each points to the following one, the last one to -1. -/
def thread_free_from (n : Nat) : Nat → List HashElem → List HashElem
  | _, [] => []
  | i, e :: es =>
    { e with next := if i + 1 < n then ((i + 1 : Nat) : Int) else -1 } ::
      thread_free_from n (i + 1) es

/-- Modelled from the spec: "an explicit free-list of entry slots": all
entries of the table are put on the free list, in index order. -/
def thread_free (hash : List HashElem) : List HashElem :=
  thread_free_from hash.length 0 hash

/-- Modelled from the spec: `Atom::map_init(int check = 1)` (declared in
`atom.h`, body absent), the first half of `init(rebuild_policy)`: select the
strategy (when `check`), then leave an empty index that can hold the owned
slots.  The structure is created anew when the strategy changed or when it
is too small ("they grow (never implicitly shrink)"); otherwise the
existing allocation is emptied, the dense array up to `map_tag_max` only.
There is no result when the recorded sizes do not match the allocations. -/
def map_init (pol : MapPolicy) (check : Bool) (s : Atom) : Option Atom :=
  match (if check then map_style_set pol s else some (s, false)) with
  | none => none
  | some (s1, restyle) =>
    let recreate : Bool :=
      restyle ||
      (decide (s1.map_style = 1) && decide (s1.map_tag_max > s1.map_maxarray)) ||
      (decide (s1.map_style = 2) && decide ((s1.nlocal : Int) > s1.map_nhash))
    if recreate then
      if s1.map_style = 1 then
        some { map_delete s1 with
                 map_maxarray := s1.map_tag_max,
                 map_array := List.replicate (s1.map_tag_max + 1).toNat (-1) }
      else if s1.map_style = 2 then
        let nhash := pol.nhash s1.nlocal
        let nbucket := pol.nbucket nhash
        some { map_delete s1 with
                 map_nhash := (nhash : Int),
                 map_nbucket := (nbucket : Int),
                 map_bucket := List.replicate nbucket (-1),
                 map_hash := thread_free (List.replicate nhash ⟨0, 0, 0⟩),
                 map_nused := 0,
                 map_free := if nhash = 0 then -1 else 0 }
      else none
    else
      if s1.map_style = 1 then
        if s1.map_array.length = (s1.map_maxarray + 1).toNat then
          some { s1 with
                   map_array := List.replicate (s1.map_tag_max + 1).toNat (-1) ++
                     s1.map_array.drop (s1.map_tag_max + 1).toNat }
        else none
      else if s1.map_style = 2 then
        if s1.map_bucket.length = s1.map_nbucket.toNat ∧
            s1.map_hash.length = s1.map_nhash.toNat then
          some { s1 with
                   map_bucket := List.replicate s1.map_bucket.length (-1),
                   map_hash := thread_free s1.map_hash,
                   map_nused := 0,
                   map_free := if s1.map_hash.length = 0 then -1 else 0 }
        else none
      else none

/-- Modelled from the spec: the loop of `Atom::map_set()` over the owned
slots `i-1, ..., 0`: each identifier `tag[slot]` is inserted with its slot.
"Detecting two distinct owned slots claiming the same identifier during a
rebuild is fatal": there is no result when the identifier is already
tracked. -/
def map_set_loop : Nat → Atom → Option Atom
  | 0, s => some s
  | i + 1, s =>
    match s.tag[i]? with
    | none => none
    | some id =>
      match map s id with
      | none => none
      | some j =>
        if j ≠ -1 then none
        else
          match map_one s id (i : Int) with
          | none => none
          | some s1 => map_set_loop i s1

/-- Modelled from the spec: `Atom::map_set()` (declared in `atom.h`, body
absent), the second half of `init(rebuild_policy)`: "(re)builds the index
from the current contents of the owned-slot range". -/
def map_set (s : Atom) : Option Atom :=
  map_set_loop s.nlocal s

/-- The rebuild of the identifier index: `map_init()` followed by
`map_set()`. -/
def map_rebuild (pol : MapPolicy) (s : Atom) : Option Atom :=
  match map_init pol true s with
  | none => none
  | some s1 => map_set s1

/-! ## Spatial sort (modelled from the design document) -/

/-- Modelled from the spec: step 4 of the reorder, "build bin membership
using a chain-per-bin structure (bin head slot plus a next-slot-in-same-bin
relation overlaid on the whole owned range)".  The slots `i-1, ..., 0` are
pushed on the chain of their bin, so that every chain lists its slots in
increasing order.  `coord2bin` is the bin of a slot; it stands for the
floor division of the particle's coordinates by the bin size. -/
def sort_bin_loop (coord2bin : Nat → Int) : Nat → List Int → List Int →
    Option (List Int × List Int)
  | 0, binhead, next => some (binhead, next)
  | i + 1, binhead, next =>
    match readAt binhead (coord2bin i) with
    | none => none
    | some head =>
      match writeAt next (i : Int) head with
      | none => none
      | some next1 =>
        match writeAt binhead (coord2bin i) (i : Int) with
        | none => none
        | some binhead1 => sort_bin_loop coord2bin i binhead1 next1

/-- Modelled from the spec: the walk along one bin chain of step 5, which
appends the slots of the chain to the permutation vector. -/
def sort_walk_chain (next : List Int) : Nat → Int → List Int → Option (List Int)
  | 0, _, _ => none
  | fuel + 1, i, permute =>
    if i ≥ 0 then
      match readAt next i with
      | none => none
      | some n => sort_walk_chain next fuel n (permute ++ [i])
    else some permute

/-- Modelled from the spec: step 5 of the reorder, "walk bins in a fixed
deterministic traversal order ... and, within a bin, in chain order":
`permute[I] = J` says that the `I`-th slot after the reorder holds the
particle of slot `J` before it. -/
def sort_walk_bins (next : List Int) : List Int → List Int → Option (List Int)
  | [], permute => some permute
  | head :: binhead, permute =>
    match sort_walk_chain next (next.length + 1) head permute with
    | none => none
    | some permute1 => sort_walk_bins next binhead permute1

/-- Modelled from the spec: step 6 of the reorder for one per-particle array:
"physically move every array element from old to new position for all owned
slots (ghosts are never reordered)".  The new owned slot `I` receives the
element of old slot `permute[I]`; the slots from `nlocal` on are kept. -/
def sort_gather (a : List Int) : List Int → Option (List Int)
  | [] => some []
  | j :: permute =>
    match readAt a j with
    | none => none
    | some v =>
      match sort_gather a permute with
      | none => none
      | some owned => some (v :: owned)

/-- Modelled from the spec: the new contents of one per-particle array: the
gathered owned slots, followed by the slots from `nlocal` on, which are
kept. -/
def sort_apply (permute : List Int) (nlocal : Nat) (a : List Int) : Option (List Int) :=
  match sort_gather a permute with
  | none => none
  | some owned => some (owned ++ a.drop nlocal)

/-- Modelled from the spec: `Atom::sort()` (declared in `atom.h`, body
absent), the reorder of section 4.3: bin the owned slots, walk the bins to
get the permutation, move the per-particle arrays, "then rebuild the
Identifier Index from the new arrangement".  Without owned particles it is
a no-op. -/
def sort (pol : MapPolicy) (coord2bin : Nat → Int) (s : Atom) : Option Atom :=
  if s.nlocal = 0 then some s
  else
    match sort_bin_loop coord2bin s.nlocal (List.replicate s.nbins (-1))
        (List.replicate s.nlocal (-1)) with
    | none => none
    | some (binhead, next) =>
      match sort_walk_bins next binhead [] with
      | none => none
      | some permute =>
        match sort_apply permute s.nlocal s.tag, sort_apply permute s.nlocal s.type,
            sort_apply permute s.nlocal s.mask with
        | some tag, some type, some mask =>
          map_rebuild pol { s with tag := tag, type := type, mask := mask,
                                   binhead := binhead, next := next, permute := permute }
        | _, _, _ => none

/-! ## Callback registry (modelled from the design document) -/

/-- Modelled from the spec: registration in one callback list, for
`register(identity, kind)`: "duplicate registration for the same (identity,
kind) is a no-op, not an error"; otherwise the identity is stored behind the
`n` registered ones, after growing the list by `delta` entries when it is
full.  Returns the list, the count and the allocated size. -/
def add_callback_list (delta : Nat) (ifix : Int) (list : List Int) (n nmax : Nat) :
    Option (List Int × Nat × Nat) :=
  if ifix ∈ list.take n then some (list, n, nmax)
  else
    let grown := if n = nmax then (list ++ List.replicate delta 0, nmax + delta)
                 else (list, nmax)
    match writeAt grown.1 (n : Int) ifix with
    | none => none
    | some list1 => some (list1, n + 1, grown.2)

/-- Modelled from the spec: `Atom::add_callback(int)` (declared in `atom.h`,
body absent), the `register(identity, kind)` of the array registry.  `flag`
is the kind: 0 = grow, 1 = restart (checkpoint), 2 = border (migrate);
`ifix` is the identity of the dependent. -/
def add_callback (delta : Nat) (ifix : Int) (flag : Int) (s : Atom) : Option Atom :=
  if flag = 0 then
    match add_callback_list delta ifix s.extra_grow s.nextra_grow s.nextra_grow_max with
    | none => none
    | some (l, n, m) => some { s with extra_grow := l, nextra_grow := n, nextra_grow_max := m }
  else if flag = 1 then
    match add_callback_list delta ifix s.extra_restart s.nextra_restart
        s.nextra_restart_max with
    | none => none
    | some (l, n, m) =>
      some { s with extra_restart := l, nextra_restart := n, nextra_restart_max := m }
  else if flag = 2 then
    match add_callback_list delta ifix s.extra_border s.nextra_border s.nextra_border_max with
    | none => none
    | some (l, n, m) =>
      some { s with extra_border := l, nextra_border := n, nextra_border_max := m }
  else some s

/-! ## Specification vocabulary -/

/-- The `next` link stored in entry `i` of a hash table, if `i` is
allocated. -/
def nextOf (hash : List HashElem) (i : Nat) : Option Int :=
  (hash[i]?).map (fun e => e.next)

/-- The key stored in entry `i` of a hash table, if `i` is allocated. -/
def keyOf (hash : List HashElem) (i : Nat) : Option Int :=
  (hash[i]?).map (fun e => e.global)

/-- The (key, slot) pair stored in entry `i` of a hash table, if `i` is
allocated. -/
def kvOf (hash : List HashElem) (i : Nat) : Option (Int × Int) :=
  (hash[i]?).map (fun e => (e.global, e.local_))

/-- A linked segment: following the links `nxt` from `h` visits exactly the
entries `l`, in order, and arrives at `t`. -/
def Seg (nxt : Nat → Option Int) : Int → List Nat → Int → Prop
  | h, [], t => h = t
  | h, i :: l, t => h = (i : Int) ∧ ∃ n, nxt i = some n ∧ Seg nxt n l t

/-- A complete chain: a linked segment that ends in the sentinel -1. -/
def Chain (nxt : Nat → Option Int) (h : Int) (l : List Nat) : Prop :=
  Seg nxt h l (-1)

/-- What a lookup of `g` along the entries `l` finds: the slot stored with
the first entry whose key is `g`. -/
def chainFind (hash : List HashElem) (g : Int) : List Nat → Option Int
  | [] => none
  | i :: l =>
    match hash[i]? with
    | none => chainFind hash g l
    | some e => if e.global = g then some e.local_ else chainFind hash g l

/-- What the key search returns along the entries `l`: the entry holding `g`
(or -1) and the entry visited before it (or `prev`). -/
def searchSpec (hash : List HashElem) (g : Int) : Int → List Nat → Int × Int
  | prev, [] => (prev, -1)
  | prev, i :: l =>
    match hash[i]? with
    | none => searchSpec hash g (i : Int) l
    | some e => if e.global = g then (prev, (i : Int)) else searchSpec hash g (i : Int) l

/-- The last entry of `l`, or `prev` when `l` is empty. -/
def lastOr : Int → List Nat → Int
  | prev, [] => prev
  | _, i :: l => lastOr (i : Int) l

/-- Lookup in an association list of (identifier, slot) pairs. -/
def alFind (g : Int) : List (Int × Int) → Option Int
  | [] => none
  | (k, v) :: al => if k = g then some v else alFind g al

/-- Associate `g` with `v`: overwrite the pair of `g`, or add one. -/
def alSet (g v : Int) : List (Int × Int) → List (Int × Int)
  | [] => [(g, v)]
  | (k, w) :: al => if k = g then (k, v) :: al else (k, w) :: alSet g v al

/-- Drop every pair of `g`. -/
def alDel (g : Int) : List (Int × Int) → List (Int × Int)
  | [] => []
  | (k, w) :: al => if k = g then alDel g al else (k, w) :: alDel g al

/-- The effect of one maintenance operation on the set of associations. -/
def alApply (al : List (Int × Int)) : MapOp → List (Int × Int)
  | .insert g v => alSet g v al
  | .remove g => alDel g al

/-- The associations after a sequence of operations. -/
def alRun (al : List (Int × Int)) : List MapOp → List (Int × Int)
  | [] => al
  | op :: ops => alRun (alApply al op) ops

/-- The sequence never holds more than `n` identifiers at once, starting
from the associations `al`. -/
def Fits (n : Nat) : List (Int × Int) → List MapOp → Prop
  | _, [] => True
  | al, op :: ops => (alApply al op).length ≤ n ∧ Fits n (alApply al op) ops

instance instDecidableFits (n : Nat) : ∀ al ops, Decidable (Fits n al ops)
  | _, [] => isTrue trivial
  | al, op :: ops =>
    have := instDecidableFits n (alApply al op) ops
    inferInstanceAs (Decidable (_ ∧ _))

/-- The expected result of a lookup after the operations `ops`, read off the
sequence itself: the slot of the most recent insertion of `id` when no
removal of `id` follows it, and the absent value -1 otherwise. -/
def specLookup (id : Int) : List MapOp → Int
  | [] => -1
  | op :: ops =>
    if ops.any (fun o => decide (o.id = id)) then specLookup id ops
    else
      match op with
      | .insert g v => if g = id then v else -1
      | .remove _ => -1

/-- Well-formedness of the hashed map: `chains b` lists the entries of bucket
`b` in chain order and `free` the entries of the free list. -/
structure HashInv (s : Atom) (chains : Nat → List Nat) (free : List Nat) : Prop where
  nbucket_pos : 0 < s.map_nbucket
  bucket_len : (s.map_bucket.length : Int) = s.map_nbucket
  chain : ∀ b, b < s.map_bucket.length →
    ∃ h, s.map_bucket[b]? = some h ∧ Chain (nextOf s.map_hash) h (chains b)
  free_chain : Chain (nextOf s.map_hash) s.map_free free
  free_nodup : free.Nodup
  disj : ∀ b, b < s.map_bucket.length → ∀ i ∈ chains b, i ∉ free
  home : ∀ b, b < s.map_bucket.length → ∀ i ∈ chains b,
    ∃ k, keyOf s.map_hash i = some k ∧ Int.tmod k s.map_nbucket = (b : Int)
  keys : ∀ b, b < s.map_bucket.length → ((chains b).map (keyOf s.map_hash)).Nodup

/-- The hashed map of `s` holds exactly the associations `al`. -/
def HashRep (s : Atom) (al : List (Int × Int)) : Prop :=
  ∃ chains free, HashInv s chains free ∧
    (∀ b, b < s.map_bucket.length → ∀ g, Int.tmod g s.map_nbucket = (b : Int) →
      chainFind s.map_hash g (chains b) = alFind g al) ∧
    free.length + al.length = s.map_hash.length ∧
    (al.map Prod.fst).Nodup

/-- An operation of the sparse strategy changes the hash table only, and
none of its sizes. -/
def HashFrame (s s2 : Atom) : Prop :=
  s2 = { s with map_bucket := s2.map_bucket, map_hash := s2.map_hash,
                map_free := s2.map_free, map_nused := s2.map_nused } ∧
  s2.map_bucket.length = s.map_bucket.length ∧
  s2.map_hash.length = s.map_hash.length


/-- The dense map of `s` holds exactly the associations `al` on the
identifiers it is set up for, `0 .. map_tag_max`. -/
def ArrRep (s : Atom) (al : List (Int × Int)) : Prop :=
  (s.map_array.length : Int) = s.map_maxarray + 1 ∧
  s.map_tag_max ≤ s.map_maxarray ∧
  ∀ id, 0 ≤ id → id ≤ s.map_tag_max →
    readAt s.map_array id = some ((alFind id al).getD (-1))

/-- The identifier index of `s`, in its active strategy, holds exactly the
associations `al`. -/
def MapRep (s : Atom) (al : List (Int × Int)) : Prop :=
  (s.map_style = 1 ∧ ArrRep s al) ∨ (s.map_style = 2 ∧ HashRep s al)

/-- The identifiers the index of `s` is set up for: `0 .. map_tag_max` in
the dense strategy ("max atom ID that map() is setup for"), the non-negative
ones in the sparse strategy. -/
def InRange (s : Atom) (id : Int) : Prop :=
  0 ≤ id ∧ (s.map_style = 1 → id ≤ s.map_tag_max)

/-- The identifiers that the operations of the index of `s` can handle
without leaving the allocations: `0 .. map_tag_max` in the dense strategy,
those with a non-negative bucket `id % map_nbucket` in the sparse one. -/
def Indexable (s : Atom) (id : Int) : Prop :=
  (s.map_style = 1 → 0 ≤ id ∧ id ≤ s.map_tag_max) ∧
  (s.map_style = 2 → 0 ≤ Int.tmod id s.map_nbucket)

instance instDecidableInRange (s : Atom) (id : Int) : Decidable (InRange s id) :=
  inferInstanceAs (Decidable (_ ∧ _))

/-- An initialised, empty index: in the dense strategy the array is
allocated (`map_maxarray + 1` entries) and holds -1 for every identifier up
to `map_tag_max`; in the sparse strategy every bucket is empty and the free
list threads all `map_nhash` entries of the table. -/
def MapEmpty (s : Atom) : Prop :=
  (s.map_style = 1 ∧
    (s.map_array.length : Int) = s.map_maxarray + 1 ∧
    s.map_tag_max ≤ s.map_maxarray ∧
    ∀ id, 0 ≤ id → id ≤ s.map_tag_max → readAt s.map_array id = some (-1)) ∨
  (s.map_style = 2 ∧
    0 < s.map_nbucket ∧
    (s.map_bucket.length : Int) = s.map_nbucket ∧
    (∀ b, b < s.map_bucket.length → s.map_bucket[b]? = some (-1)) ∧
    ∃ free, Chain (nextOf s.map_hash) s.map_free free ∧ free.Nodup ∧
      free.length = s.map_hash.length)

/-- The members that no maintenance operation changes, with the sizes of
the allocations. -/
def mapShape (s : Atom) :=
  (s.nlocal, s.tag, s.type, s.mask, s.map_style, s.map_user, s.map_tag_max, s.map_maxarray,
    s.map_nhash, s.map_nbucket, s.map_array.length, s.map_bucket.length, s.map_hash.length)

/-- The maximum identifier of the owned slots, -1 without owned slots. -/
def owned_max (s : Atom) : Int :=
  (s.tag.take s.nlocal).foldl max (-1)

/-- The strategy that a rebuild selects. -/
def chosen_style (pol : MapPolicy) (s : Atom) : Int :=
  if s.map_user = 1 ∨ s.map_user = 2 then s.map_user
  else if owned_max s ≤ pol.dense_factor * (s.nlocal : Int) then 1 else 2

/-- The recorded sizes of the index agree with its allocations, and a sparse
index has buckets. -/
def MapSized (s : Atom) : Prop :=
  s.map_array.length = (s.map_maxarray + 1).toNat ∧
  s.map_bucket.length = s.map_nbucket.toNat ∧
  s.map_hash.length = s.map_nhash.toNat ∧
  (s.map_style = 2 → 0 < s.map_nbucket)

/-- A sizing policy that a rebuild can use: the table has an entry for every
owned particle and at least one bucket. -/
def PolicyOk (pol : MapPolicy) : Prop :=
  (∀ n, n ≤ pol.nhash n) ∧ (∀ n, 0 < pol.nbucket n)

/-- The owned-slot arrangement of the data model: the tag array covers the
owned slots, identifiers are not negative, and distinct owned slots hold
distinct identifiers ("at most one owned slot per identifier"). -/
def OwnedValid (s : Atom) : Prop :=
  s.nlocal ≤ s.tag.length ∧
  (∀ i, i < s.nlocal → ∀ id, s.tag[i]? = some id → 0 ≤ id) ∧
  (∀ i j, i < s.nlocal → j < s.nlocal → s.tag[i]? = s.tag[j]? → i = j)

/-- What a rebuild needs of the owned slots: the tag array covers them, the
emptied index can handle their identifiers, and distinct owned slots hold
distinct identifiers. -/
def OwnedOk (pol : MapPolicy) (s : Atom) : Prop :=
  s.nlocal ≤ s.tag.length ∧
  (∀ s1, map_init pol true s = some s1 →
    ∀ i, i < s.nlocal → ∀ id, s.tag[i]? = some id → Indexable s1 id) ∧
  (∀ i j, i < s.nlocal → j < s.nlocal → s.tag[i]? = s.tag[j]? → i = j)

/-- The `next` link of slot `i` in the bin chains. -/
def nextAt (next : List Int) (i : Nat) : Option Int := next[i]?

/-- The owned slots `k, ..., n-1` that lie in bin `m`, in increasing
order. -/
def binSlots (coord2bin : Nat → Int) (m k n : Nat) : List Nat :=
  (List.range' k (n - k)).filter (fun i => decide (coord2bin i = (m : Int)))

/-- The order in which the reorder visits the `n` owned slots: bin after
bin, and inside a bin in increasing slot order. -/
def visitOrder (coord2bin : Nat → Int) (nbins n : Nat) : List Nat :=
  (List.range nbins).flatMap (fun m => binSlots coord2bin m 0 n)

/-- The bin chains hold the slots `k, ..., n-1`: the chain of every bin
lists the slots of the bin in increasing order. -/
def BinInv (coord2bin : Nat → Int) (nbins n k : Nat) (binhead next : List Int) : Prop :=
  binhead.length = nbins ∧ next.length = n ∧
  ∀ m, m < nbins → ∃ h, binhead[m]? = some h ∧
    Chain (nextAt next) h (binSlots coord2bin m k n)


/-! ## Example objects -/

/-- A dense index set up for the identifiers 0..2, nothing tracked. -/
def dense_small : Atom :=
  { map_style := 1, map_tag_max := 2, map_maxarray := 2, map_array := [-1, -1, -1] }

/-- An empty sparse index with four entries and three buckets. -/
def sparse_small : Atom :=
  { map_style := 2, map_nhash := 4, map_nbucket := 3, map_bucket := [-1, -1, -1],
    map_free := 0,
    map_hash := [⟨0, 0, 1⟩, ⟨0, 0, 2⟩, ⟨0, 0, 3⟩, ⟨0, 0, -1⟩] }

/-- An object without identifier map. -/
def no_map : Atom := { map_style := 0 }

/-- Insert 5, 2, 9 at the slots 0, 1, 2. -/
def scenario_insert : List MapOp := [.insert 5 0, .insert 2 1, .insert 9 2]

/-- The scenario of the design document: insert 5, 2, 9 at the slots 0, 1,
2, then remove slot 0 by swap-with-last: 5 is removed and 9 is inserted
again, at slot 0. -/
def scenario_swap : List MapOp :=
  [.insert 5 0, .insert 2 1, .insert 9 2, .remove 5, .insert 9 0]

/-- A dense index set up for the identifiers 0..9, nothing tracked. -/
def dense_ten : Atom :=
  { map_style := 1, map_tag_max := 9, map_maxarray := 9, map_array := List.replicate 10 (-1) }

/-- An empty sparse index with two entries. -/
def sparse_two : Atom :=
  { map_style := 2, map_nhash := 2, map_nbucket := 3, map_bucket := [-1, -1, -1],
    map_free := 0, map_hash := [⟨0, 0, 1⟩, ⟨0, 0, -1⟩] }

/-- A sizing policy: dense when the largest identifier is at most four times
the number of owned particles; two table entries per owned particle and as
many buckets plus one. -/
def policy_small : MapPolicy :=
  { dense_factor := 4, nhash := fun n => 2 * n, nbucket := fun n => n + 1 }

/-- Three owned particles with the identifiers 5, 2, 9 and one ghost, no
index built yet. -/
def three_owned : Atom :=
  { nlocal := 3, tag := [5, 2, 9, 77], type := [10, 20, 30, 40], mask := [1, 2, 3, 4],
    nbins := 2 }

/-- A registry with the dependents 7 and 8 registered for grow callbacks
and the dependent 8 for border callbacks. -/
def two_callbacks : Atom :=
  { nextra_grow := 2, extra_grow := [7, 8], nextra_grow_max := 2,
    nextra_border := 1, extra_border := [8, 0], nextra_border_max := 2 }

/-- A bin assignment for three slots: slot 1 lies in bin 0, the others in
bin 1. -/
def two_bins (i : Nat) : Int := if i = 1 then 0 else 1

/-! ## Linked segments -/

theorem seg_congr {nxt nxt2 : Nat → Option Int} {l : List Nat} :
    ∀ {h t : Int}, (∀ i ∈ l, nxt2 i = nxt i) → Seg nxt h l t → Seg nxt2 h l t := by
  induction l with
  | nil => intro h t _ hs; exact hs
  | cons i l ih =>
    intro h t hc hs
    obtain ⟨hh, n, hn, hrest⟩ := hs
    refine ⟨hh, n, ?_, ih (fun j hj => hc j (List.mem_cons_of_mem _ hj)) hrest⟩
    rw [hc i (List.mem_cons_self _ _)]; exact hn

theorem seg_append {nxt : Nat → Option Int} {l1 l2 : List Nat} :
    ∀ {h t : Int}, Seg nxt h (l1 ++ l2) t ↔ ∃ m, Seg nxt h l1 m ∧ Seg nxt m l2 t := by
  induction l1 with
  | nil =>
    intro h t
    constructor
    · intro hs; exact ⟨h, rfl, hs⟩
    · rintro ⟨m, hm, hs⟩
      have : h = m := hm
      subst this; exact hs
  | cons i l1 ih =>
    intro h t
    constructor
    · rintro ⟨hh, n, hn, hrest⟩
      obtain ⟨m, h1, h2⟩ := ih.mp hrest
      exact ⟨m, ⟨hh, n, hn, h1⟩, h2⟩
    · rintro ⟨m, ⟨hh, n, hn, h1⟩, h2⟩
      exact ⟨hh, n, hn, ih.mpr ⟨m, h1, h2⟩⟩

theorem seg_single {nxt : Nat → Option Int} {h t : Int} {i : Nat} :
    Seg nxt h [i] t ↔ h = (i : Int) ∧ nxt i = some t := by
  constructor
  · rintro ⟨hh, n, hn, hrest⟩
    have : n = t := hrest
    subst this; exact ⟨hh, hn⟩
  · rintro ⟨hh, hn⟩
    exact ⟨hh, t, hn, rfl⟩


/-! ## Memory lemmas -/

theorem readAt_nat {α : Type} (a : List α) (i : Nat) : readAt a (i : Int) = a[i]? := by
  simp [readAt]

theorem readAt_eq_some {α : Type} {a : List α} {i : Int} {v : α}
    (h : readAt a i = some v) : 0 ≤ i ∧ a[i.toNat]? = some v := by
  unfold readAt at h
  split at h
  · exact ⟨by assumption, h⟩
  · cases h

theorem writeAt_nat {α : Type} (a : List α) (i : Nat) (v : α) (h : i < a.length) :
    writeAt a (i : Int) v = some (a.set i v) := by
  simp [writeAt, h]

theorem nextOf_eq_some {hash : List HashElem} {i : Nat} {n : Int}
    (h : nextOf hash i = some n) : ∃ e, hash[i]? = some e ∧ e.next = n := by
  unfold nextOf at h
  cases he : hash[i]? with
  | none => simp [he] at h
  | some e => exact ⟨e, rfl, by simpa [he] using h⟩

theorem nextOf_of_get {hash : List HashElem} {i : Nat} {e : HashElem}
    (h : hash[i]? = some e) : nextOf hash i = some e.next := by
  simp [nextOf, h]

theorem keyOf_of_get {hash : List HashElem} {i : Nat} {e : HashElem}
    (h : hash[i]? = some e) : keyOf hash i = some e.global := by
  simp [keyOf, h]

theorem keyOf_eq_some {hash : List HashElem} {i : Nat} {k : Int}
    (h : keyOf hash i = some k) : ∃ e, hash[i]? = some e ∧ e.global = k := by
  unfold keyOf at h
  cases he : hash[i]? with
  | none => simp [he] at h
  | some e => exact ⟨e, rfl, by simpa [he] using h⟩

theorem get_lt_of_some {α : Type} {a : List α} {i : Nat} {v : α} (h : a[i]? = some v) :
    i < a.length := by
  by_contra hc
  rw [List.getElem?_eq_none (by omega)] at h
  cases h

/-- Every entry of a chain is allocated. -/
theorem seg_alloc {hash : List HashElem} {l : List Nat} :
    ∀ {h t : Int}, Seg (nextOf hash) h l t → ∀ i ∈ l, ∃ e, hash[i]? = some e := by
  induction l with
  | nil => intro h t _ i hi; cases hi
  | cons j l ih =>
    intro h t hs i hi
    obtain ⟨_, n, hn, hrest⟩ := hs
    rcases List.mem_cons.mp hi with rfl | hi
    · obtain ⟨e, he, _⟩ := nextOf_eq_some hn
      exact ⟨e, he⟩
    · exact ih hrest i hi

theorem nodup_length_le {l : List Nat} {n : Nat} (hnd : l.Nodup) (hlt : ∀ i ∈ l, i < n) :
    l.length ≤ n := by
  have hsub : l ⊆ List.range n := fun i hi => List.mem_range.mpr (hlt i hi)
  have := (List.subperm_of_subset hnd hsub).length_le
  simpa using this

/-! ## The chain walks compute the specification functions -/

theorem map_find_loop_chain (hash : List HashElem) (g : Int) :
    ∀ (l : List Nat) (fuel : Nat) (h : Int), Chain (nextOf hash) h l → l.length < fuel →
      map_find_loop hash g fuel h = some ((chainFind hash g l).getD (-1)) := by
  intro l
  induction l with
  | nil =>
    intro fuel h hc hf
    have hh : h = -1 := hc
    subst hh
    cases fuel with
    | zero => simp at hf
    | succ f => simp [map_find_loop, chainFind]
  | cons i l ih =>
    intro fuel h hc hf
    obtain ⟨hh, n, hn, hrest⟩ := hc
    obtain ⟨e, he, hen⟩ := nextOf_eq_some hn
    subst hh
    cases fuel with
    | zero => simp at hf
    | succ f =>
      have hpos : ((i : Int) > -1) := by omega
      simp only [map_find_loop, hpos, if_true, readAt_nat, he, chainFind]
      by_cases hk : e.global = g
      · simp [hk]
      · simp only [hk, if_false]
        rw [hen]
        exact ih f n hrest (by simpa using hf)

theorem map_search_loop_chain (hash : List HashElem) (g : Int) :
    ∀ (l : List Nat) (fuel : Nat) (prev h : Int), Chain (nextOf hash) h l → l.length < fuel →
      map_search_loop hash g fuel prev h = some (searchSpec hash g prev l) := by
  intro l
  induction l with
  | nil =>
    intro fuel prev h hc hf
    have hh : h = -1 := hc
    subst hh
    cases fuel with
    | zero => simp at hf
    | succ f => simp [map_search_loop, searchSpec]
  | cons i l ih =>
    intro fuel prev h hc hf
    obtain ⟨hh, n, hn, hrest⟩ := hc
    obtain ⟨e, he, hen⟩ := nextOf_eq_some hn
    subst hh
    cases fuel with
    | zero => simp at hf
    | succ f =>
      have hpos : ((i : Int) > -1) := by omega
      simp only [map_search_loop, hpos, if_true, readAt_nat, he, searchSpec]
      by_cases hk : e.global = g
      · simp [hk]
      · simp only [hk, if_false]
        rw [hen]
        exact ih f (i : Int) n hrest (by simpa using hf)

theorem lastOr_snoc (prev : Int) (l : List Nat) (q : Nat) : lastOr prev (l ++ [q]) = (q : Int) := by
  induction l generalizing prev with
  | nil => rfl
  | cons i l ih => simpa [lastOr] using ih (i : Int)

/-- The two outcomes of the key search along allocated entries. -/
theorem searchSpec_cases (hash : List HashElem) (g : Int) :
    ∀ (l : List Nat) (prev : Int), (∀ i ∈ l, ∃ e, hash[i]? = some e) →
      (∃ (l1 : List Nat) (i : Nat) (l2 : List Nat) (e : HashElem),
          l = l1 ++ i :: l2 ∧ hash[i]? = some e ∧ e.global = g ∧
          (∀ j ∈ l1, keyOf hash j ≠ some g) ∧
          searchSpec hash g prev l = (lastOr prev l1, (i : Int))) ∨
      ((∀ j ∈ l, keyOf hash j ≠ some g) ∧ searchSpec hash g prev l = (lastOr prev l, -1)) := by
  intro l
  induction l with
  | nil => intro prev _; right; exact ⟨by simp, rfl⟩
  | cons i l ih =>
    intro prev hall
    obtain ⟨e, he⟩ := hall i (List.mem_cons_self _ _)
    by_cases hk : e.global = g
    · left
      refine ⟨[], i, l, e, rfl, he, hk, by simp, ?_⟩
      simp [searchSpec, he, hk, lastOr]
    · have hall2 : ∀ j ∈ l, ∃ e, hash[j]? = some e :=
        fun j hj => hall j (List.mem_cons_of_mem _ hj)
      have hki : keyOf hash i ≠ some g := by
        rw [keyOf_of_get he]; intro h; exact hk (Option.some.inj h)
      rcases ih (i : Int) hall2 with ⟨l1, j, l2, e2, hl, he2, hk2, hno, hs⟩ | ⟨hno, hs⟩
      · left
        refine ⟨i :: l1, j, l2, e2, by simp [hl], he2, hk2, ?_, ?_⟩
        · intro x hx
          rcases List.mem_cons.mp hx with rfl | hx
          · exact hki
          · exact hno x hx
        · simp [searchSpec, he, hk, lastOr, hs]
      · right
        refine ⟨?_, ?_⟩
        · intro x hx
          rcases List.mem_cons.mp hx with rfl | hx
          · exact hki
          · exact hno x hx
        · simp [searchSpec, he, hk, lastOr, hs]

/-! ## Lookups along a list of entries -/

theorem chainFind_append (hash : List HashElem) (g : Int) (l1 l2 : List Nat) :
    chainFind hash g (l1 ++ l2) =
      match chainFind hash g l1 with
      | some v => some v
      | none => chainFind hash g l2 := by
  induction l1 with
  | nil => rfl
  | cons i l1 ih =>
    simp only [List.cons_append, chainFind]
    cases he : hash[i]? with
    | none => simpa using ih
    | some e =>
      by_cases hk : e.global = g
      · simp [hk]
      · simpa [hk] using ih

theorem chainFind_eq_none {hash : List HashElem} {g : Int} {l : List Nat} :
    chainFind hash g l = none ↔ ∀ j ∈ l, keyOf hash j ≠ some g := by
  induction l with
  | nil => simp [chainFind]
  | cons i l ih =>
    simp only [chainFind, List.mem_cons, forall_eq_or_imp]
    cases he : hash[i]? with
    | none => simp [keyOf, he, ih]
    | some e =>
      by_cases hk : e.global = g
      · simp [keyOf, he, hk]
      · simp [keyOf, he, hk, ih]

theorem chainFind_congr {hash hash2 : List HashElem} {g : Int} {l : List Nat}
    (h : ∀ i ∈ l, hash2[i]? = hash[i]?) : chainFind hash2 g l = chainFind hash g l := by
  induction l with
  | nil => rfl
  | cons i l ih =>
    simp only [chainFind, h i (List.mem_cons_self _ _)]
    rw [ih (fun j hj => h j (List.mem_cons_of_mem _ hj))]

theorem seg_frame {hash hash2 : List HashElem} {l : List Nat} {h t : Int}
    (hf : ∀ i ∈ l, hash2[i]? = hash[i]?) (hs : Seg (nextOf hash) h l t) :
    Seg (nextOf hash2) h l t :=
  seg_congr (fun i hi => by simp [nextOf, hf i hi]) hs

theorem keys_frame {hash hash2 : List HashElem} {l : List Nat}
    (hf : ∀ i ∈ l, hash2[i]? = hash[i]?) : l.map (keyOf hash2) = l.map (keyOf hash) := by
  apply List.map_congr_left
  intro i hi
  simp [keyOf, hf i hi]

/-- With distinct keys, the lookup of the key of a listed entry finds that
entry. -/
theorem chainFind_of_mem {hash : List HashElem} {l : List Nat} {i : Nat} {e : HashElem}
    (hk : (l.map (keyOf hash)).Nodup) (hi : i ∈ l) (he : hash[i]? = some e) :
    chainFind hash e.global l = some e.local_ := by
  induction l with
  | nil => cases hi
  | cons j l ih =>
    rw [List.map_cons, List.nodup_cons] at hk
    rcases List.mem_cons.mp hi with rfl | hi
    · simp [chainFind, he]
    · have hne : keyOf hash j ≠ keyOf hash i := by
        intro heq
        exact hk.1 (heq ▸ List.mem_map_of_mem _ hi)
      simp only [chainFind]
      cases hj : hash[j]? with
      | none => exact ih hk.2 hi
      | some ej =>
        have : ej.global ≠ e.global := by
          intro heq
          apply hne
          rw [keyOf_of_get hj, keyOf_of_get he, heq]
        simp [this, ih hk.2 hi]

/-! ## Association lists -/

theorem alFind_alSet (g v g2 : Int) (al : List (Int × Int)) :
    alFind g2 (alSet g v al) = if g2 = g then some v else alFind g2 al := by
  induction al with
  | nil =>
    simp only [alSet, alFind]
    by_cases h : g = g2
    · simp [h]
    · have : g2 ≠ g := fun h2 => h h2.symm
      simp [h, this]
  | cons p al ih =>
    obtain ⟨k, w⟩ := p
    simp only [alSet]
    by_cases hk : k = g
    · simp only [hk, if_true, alFind]
      by_cases h : g = g2
      · simp [h]
      · have : g2 ≠ g := fun h2 => h h2.symm
        simp [h, this]
    · simp only [hk, if_false, alFind, ih]
      by_cases hk2 : k = g2
      · have : g2 ≠ g := fun h2 => hk (hk2.trans h2)
        simp [hk2, this]
      · simp [hk2]

theorem alFind_alDel (g g2 : Int) (al : List (Int × Int)) :
    alFind g2 (alDel g al) = if g2 = g then none else alFind g2 al := by
  induction al with
  | nil => simp [alDel, alFind]
  | cons p al ih =>
    obtain ⟨k, w⟩ := p
    simp only [alDel]
    by_cases hk : k = g
    · simp only [hk, if_true, alFind, ih]
      by_cases h : g = g2
      · simp [h]
      · have : g2 ≠ g := fun h2 => h h2.symm
        simp [h, this]
    · simp only [hk, if_false, alFind, ih]
      by_cases hk2 : k = g2
      · have : g2 ≠ g := fun h2 => hk (hk2.trans h2)
        simp [hk2, this]
      · simp [hk2]

theorem alFind_eq_none {g : Int} {al : List (Int × Int)} :
    alFind g al = none ↔ g ∉ al.map Prod.fst := by
  induction al with
  | nil => simp [alFind]
  | cons p al ih =>
    obtain ⟨k, w⟩ := p
    by_cases hk : k = g
    · simp [alFind, hk]
    · have : g ≠ k := fun h => hk h.symm
      simp [alFind, hk, this, ih]

theorem alSet_length (g v : Int) (al : List (Int × Int)) :
    (alSet g v al).length = if alFind g al = none then al.length + 1 else al.length := by
  induction al with
  | nil => simp [alSet, alFind]
  | cons p al ih =>
    obtain ⟨k, w⟩ := p
    by_cases hk : k = g
    · simp [alSet, alFind, hk]
    · simp only [alSet, alFind, hk, if_false, List.length_cons, ih]
      split <;> rfl

theorem alSet_keys_nodup (g v : Int) (al : List (Int × Int))
    (h : (al.map Prod.fst).Nodup) : ((alSet g v al).map Prod.fst).Nodup := by
  induction al with
  | nil => simp [alSet]
  | cons p al ih =>
    obtain ⟨k, w⟩ := p
    rw [List.map_cons, List.nodup_cons] at h
    by_cases hk : k = g
    · simp only [alSet, hk, if_true, List.map_cons, List.nodup_cons]
      exact ⟨hk ▸ h.1, h.2⟩
    · simp only [alSet, hk, if_false, List.map_cons, List.nodup_cons]
      refine ⟨?_, ih h.2⟩
      have h1 : alFind k al = none := alFind_eq_none.mpr h.1
      have h2 : alFind k (alSet g v al) = none := by
        rw [alFind_alSet]; simp [hk, h1]
      exact alFind_eq_none.mp h2

theorem alDel_keys_nodup (g : Int) (al : List (Int × Int))
    (h : (al.map Prod.fst).Nodup) : ((alDel g al).map Prod.fst).Nodup := by
  induction al with
  | nil => simp [alDel]
  | cons p al ih =>
    obtain ⟨k, w⟩ := p
    rw [List.map_cons, List.nodup_cons] at h
    by_cases hk : k = g
    · simp only [alDel, hk, if_true]
      exact ih h.2
    · simp only [alDel, hk, if_false, List.map_cons, List.nodup_cons]
      refine ⟨?_, ih h.2⟩
      have h1 : alFind k al = none := alFind_eq_none.mpr h.1
      have h2 : alFind k (alDel g al) = none := by
        rw [alFind_alDel]; simp [h1]
      exact alFind_eq_none.mp h2

theorem alDel_of_none {g : Int} {al : List (Int × Int)} (h : alFind g al = none) :
    alDel g al = al := by
  induction al with
  | nil => rfl
  | cons p al ih =>
    obtain ⟨k, w⟩ := p
    by_cases hk : k = g
    · simp [alFind, hk] at h
    · simp only [alFind, hk, if_false] at h
      simp [alDel, hk, ih h]

theorem alDel_length {g : Int} {al : List (Int × Int)} (hnd : (al.map Prod.fst).Nodup)
    {v : Int} (h : alFind g al = some v) : (alDel g al).length + 1 = al.length := by
  induction al with
  | nil => simp [alFind] at h
  | cons p al ih =>
    obtain ⟨k, w⟩ := p
    rw [List.map_cons, List.nodup_cons] at hnd
    by_cases hk : k = g
    · subst hk
      have h1 : alFind k al = none := alFind_eq_none.mpr hnd.1
      simp [alDel, alDel_of_none h1]
    · simp only [alFind, hk, if_false] at h
      simp [alDel, hk, ih hnd.2 h]


/-! ## The hashed map: reading -/

theorem HashInv.chain_nodup {s : Atom} {chains : Nat → List Nat} {free : List Nat}
    (hinv : HashInv s chains free) {b : Nat} (hb : b < s.map_bucket.length) :
    (chains b).Nodup :=
  List.Nodup.of_map _ (hinv.keys b hb)

theorem HashInv.chain_length {s : Atom} {chains : Nat → List Nat} {free : List Nat}
    (hinv : HashInv s chains free) {b : Nat} (hb : b < s.map_bucket.length) :
    (chains b).length < s.map_hash.length + 1 := by
  have h1 : ∀ i ∈ chains b, i < s.map_hash.length := by
    intro i hi
    obtain ⟨k, hk, _⟩ := hinv.home b hb i hi
    obtain ⟨e, he, _⟩ := keyOf_eq_some hk
    exact get_lt_of_some he
  have := nodup_length_le (hinv.chain_nodup hb) h1
  omega

/-- Entries of different buckets are different, and none is on the free
list. -/
theorem HashInv.other {s : Atom} {chains : Nat → List Nat} {free : List Nat}
    (hinv : HashInv s chains free) {b c : Nat} (hb : b < s.map_bucket.length)
    (hc : c < s.map_bucket.length) (hne : c ≠ b) :
    ∀ i ∈ chains c, i ∉ chains b ∧ i ∉ free := by
  intro i hi
  refine ⟨?_, hinv.disj c hc i hi⟩
  intro hib
  obtain ⟨k, hk, hm⟩ := hinv.home c hc i hi
  obtain ⟨k2, hk2, hm2⟩ := hinv.home b hb i hib
  rw [hk] at hk2
  cases hk2
  rw [hm] at hm2
  exact hne (by exact_mod_cast hm2)

/-- The bucket index of an identifier whose remainder is not negative. -/
theorem HashInv.bucket {s : Atom} {chains : Nat → List Nat} {free : List Nat}
    (hinv : HashInv s chains free) {g : Int} (hg : 0 ≤ Int.tmod g s.map_nbucket) :
    ∃ b : Nat, b < s.map_bucket.length ∧ (b : Int) = Int.tmod g s.map_nbucket ∧
      map_ibucket s g = some (b : Int) := by
  refine ⟨(Int.tmod g s.map_nbucket).toNat, ?_, Int.toNat_of_nonneg hg, ?_⟩
  · have h1 := Int.tmod_lt_of_pos g hinv.nbucket_pos
    have h2 := hinv.bucket_len
    omega
  · simp [map_ibucket, ne_of_gt hinv.nbucket_pos, Int.toNat_of_nonneg hg]

/-- A lookup in a well-formed hashed map returns the slot associated with
the identifier, or -1. -/
theorem map_find_hash_rep {s : Atom} {al : List (Int × Int)} (hrep : HashRep s al)
    {g : Int} (hg : 0 ≤ Int.tmod g s.map_nbucket) :
    map_find_hash s g = some ((alFind g al).getD (-1)) := by
  obtain ⟨chains, free, hinv, hlook, _, _⟩ := hrep
  obtain ⟨b, hb, hbc, hib⟩ := hinv.bucket hg
  obtain ⟨h, hh, hch⟩ := hinv.chain b hb
  unfold map_find_hash
  rw [hib]
  simp only [readAt_nat, hh]
  rw [map_find_loop_chain s.map_hash g (chains b) _ h hch (hinv.chain_length hb)]
  rw [hlook b hb g hbc.symm]

/-! ## The hashed map: writing -/

/-- Re-establishing well-formedness after an operation that touched only
bucket `b` and the free list. -/
theorem hashInv_update {s s2 : Atom} {chains : Nat → List Nat} {free : List Nat}
    (hinv : HashInv s chains free) {b : Nat} (hb : b < s.map_bucket.length)
    (hnb : s2.map_nbucket = s.map_nbucket)
    (hlen : s2.map_bucket.length = s.map_bucket.length)
    (hbucket : ∀ c, c < s.map_bucket.length → c ≠ b → s2.map_bucket[c]? = s.map_bucket[c]?)
    (hframe : ∀ i, i ∉ chains b → i ∉ free → s2.map_hash[i]? = s.map_hash[i]?)
    {lb free2 : List Nat}
    (hchain : ∃ h, s2.map_bucket[b]? = some h ∧ Chain (nextOf s2.map_hash) h lb)
    (hfree : Chain (nextOf s2.map_hash) s2.map_free free2)
    (hfnd : free2.Nodup)
    (hdisj : ∀ i ∈ lb, i ∉ free2)
    (hsub : ∀ i ∈ free2, i ∈ free ∨ i ∈ chains b)
    (hhome : ∀ i ∈ lb, ∃ k, keyOf s2.map_hash i = some k ∧
      Int.tmod k s.map_nbucket = (b : Int))
    (hkeys : (lb.map (keyOf s2.map_hash)).Nodup) :
    HashInv s2 (Function.update chains b lb) free2 := by
  have hfr : ∀ c, c < s.map_bucket.length → c ≠ b →
      ∀ i ∈ chains c, s2.map_hash[i]? = s.map_hash[i]? := by
    intro c hc hne i hi
    obtain ⟨h1, h2⟩ := hinv.other hb hc hne i hi
    exact hframe i h1 h2
  refine ⟨hnb ▸ hinv.nbucket_pos, by rw [hlen, hnb]; exact hinv.bucket_len, ?_, hfree, hfnd,
    ?_, ?_, ?_⟩
  · intro c hc
    rw [hlen] at hc
    by_cases hcb : c = b
    · subst hcb
      simpa using hchain
    · obtain ⟨h, hh, hch⟩ := hinv.chain c hc
      refine ⟨h, by rw [hbucket c hc hcb]; exact hh, ?_⟩
      simp only [Function.update_noteq hcb]
      exact seg_frame (hfr c hc hcb) hch
  · intro c hc i hi
    rw [hlen] at hc
    by_cases hcb : c = b
    · subst hcb
      simp only [Function.update_same] at hi
      exact hdisj i hi
    · simp only [Function.update_noteq hcb] at hi
      intro hif
      obtain ⟨h1, h2⟩ := hinv.other hb hc hcb i hi
      rcases hsub i hif with h3 | h3
      · exact h2 h3
      · exact h1 h3
  · intro c hc i hi
    rw [hlen] at hc
    rw [hnb]
    by_cases hcb : c = b
    · subst hcb
      simp only [Function.update_same] at hi
      exact hhome i hi
    · simp only [Function.update_noteq hcb] at hi
      have : keyOf s2.map_hash i = keyOf s.map_hash i := by
        simp [keyOf, hfr c hc hcb i hi]
      rw [this]
      exact hinv.home c hc i hi
  · intro c hc
    rw [hlen] at hc
    by_cases hcb : c = b
    · subst hcb
      simpa using hkeys
    · simp only [Function.update_noteq hcb]
      rw [keys_frame (hfr c hc hcb)]
      exact hinv.keys c hc

/-- Lookups in the other buckets are not affected. -/
theorem hashInv_look_other {s s2 : Atom} {chains : Nat → List Nat} {free : List Nat}
    (hinv : HashInv s chains free) {b : Nat} (hb : b < s.map_bucket.length)
    (hframe : ∀ i, i ∉ chains b → i ∉ free → s2.map_hash[i]? = s.map_hash[i]?)
    {c : Nat} (hc : c < s.map_bucket.length) (hne : c ≠ b) (g : Int) :
    chainFind s2.map_hash g (chains c) = chainFind s.map_hash g (chains c) := by
  apply chainFind_congr
  intro i hi
  obtain ⟨h1, h2⟩ := hinv.other hb hc hne i hi
  exact hframe i h1 h2


/-! ## Entry updates -/

theorem get_set_self {α : Type} {a : List α} {i : Nat} (v : α) (h : i < a.length) :
    (a.set i v)[i]? = some v := by
  simp [List.getElem?_set, h]

theorem get_set_other {α : Type} {a : List α} {i j : Nat} (v : α) (h : j ≠ i) :
    (a.set i v)[j]? = a[j]? := by
  have : i ≠ j := fun h2 => h h2.symm
  simp [List.getElem?_set, this]

theorem keyOf_eq_of_kvOf {hash hash2 : List HashElem} {i : Nat}
    (h : kvOf hash2 i = kvOf hash i) : keyOf hash2 i = keyOf hash i := by
  unfold kvOf at h
  unfold keyOf
  cases h1 : hash[i]? <;> cases h2 : hash2[i]? <;> simp_all

theorem kvOf_eq_of_get {hash hash2 : List HashElem} {i : Nat}
    (h : hash2[i]? = hash[i]?) : kvOf hash2 i = kvOf hash i := by
  simp [kvOf, h]

/-- A lookup only reads keys and slots. -/
theorem chainFind_congr_kv {hash hash2 : List HashElem} {g : Int} {l : List Nat}
    (h : ∀ i ∈ l, kvOf hash2 i = kvOf hash i ∨
      (keyOf hash2 i ≠ some g ∧ keyOf hash i ≠ some g)) :
    chainFind hash2 g l = chainFind hash g l := by
  induction l with
  | nil => rfl
  | cons i l ih =>
    have ih2 := ih (fun j hj => h j (List.mem_cons_of_mem _ hj))
    have hi := h i (List.mem_cons_self _ _)
    simp only [chainFind, ih2]
    unfold kvOf keyOf at hi
    cases h1 : hash[i]? with
    | none =>
      cases h2 : hash2[i]? with
      | none => rfl
      | some e2 =>
        simp only [h1, h2, Option.map_some', Option.map_none', false_or, reduceCtorEq] at hi
        have : e2.global ≠ g := fun hh => hi.1 (by rw [hh])
        simp [this]
    | some e1 =>
      cases h2 : hash2[i]? with
      | none =>
        simp only [h1, h2, Option.map_some', Option.map_none', false_or, reduceCtorEq] at hi
        have : e1.global ≠ g := fun hh => hi.2 (by rw [hh])
        simp [this]
      | some e2 =>
        simp only [h1, h2, Option.map_some', Option.some.injEq, Prod.mk.injEq] at hi
        rcases hi with ⟨hg, hl⟩ | ⟨hn2, hn1⟩
        · simp [hg, hl]
        · have a1 : e1.global ≠ g := fun hh => hn1 (by rw [hh])
          have a2 : e2.global ≠ g := fun hh => hn2 (by rw [hh])
          simp [a1, a2]

/-- Re-establishing the representation after an operation on identifier
bucket `b`. -/
theorem hashRep_update (s s2 : Atom) {chains : Nat → List Nat} {free : List Nat}
    {al al2 : List (Int × Int)}
    (hinv : HashInv s chains free)
    (hlook : ∀ b, b < s.map_bucket.length → ∀ g, Int.tmod g s.map_nbucket = (b : Int) →
      chainFind s.map_hash g (chains b) = alFind g al)
    {b : Nat} (hb : b < s.map_bucket.length)
    (hnb : s2.map_nbucket = s.map_nbucket)
    (hlen : s2.map_bucket.length = s.map_bucket.length)
    (hhlen : s2.map_hash.length = s.map_hash.length)
    (hbucket : ∀ c, c < s.map_bucket.length → c ≠ b → s2.map_bucket[c]? = s.map_bucket[c]?)
    (hframe : ∀ i, i ∉ chains b → i ∉ free → s2.map_hash[i]? = s.map_hash[i]?)
    {lb free2 : List Nat}
    (hchain : ∃ h, s2.map_bucket[b]? = some h ∧ Chain (nextOf s2.map_hash) h lb)
    (hfree : Chain (nextOf s2.map_hash) s2.map_free free2)
    (hfnd : free2.Nodup)
    (hdisj : ∀ i ∈ lb, i ∉ free2)
    (hsub : ∀ i ∈ free2, i ∈ free ∨ i ∈ chains b)
    (hhome : ∀ i ∈ lb, ∃ k, keyOf s2.map_hash i = some k ∧
      Int.tmod k s.map_nbucket = (b : Int))
    (hkeys : (lb.map (keyOf s2.map_hash)).Nodup)
    (hcount : free2.length + al2.length = s.map_hash.length)
    (hnd : (al2.map Prod.fst).Nodup)
    (hlookb : ∀ g, Int.tmod g s.map_nbucket = (b : Int) →
      chainFind s2.map_hash g lb = alFind g al2)
    (hother : ∀ g, Int.tmod g s.map_nbucket ≠ (b : Int) → alFind g al2 = alFind g al) :
    HashRep s2 al2 := by
  refine ⟨Function.update chains b lb, free2,
    hashInv_update hinv hb hnb hlen hbucket hframe hchain hfree hfnd hdisj hsub hhome hkeys,
    ?_, by rw [hhlen]; exact hcount, hnd⟩
  intro c hc g hg
  rw [hlen] at hc
  rw [hnb] at hg
  by_cases hcb : c = b
  · subst hcb
    simp only [Function.update_same]
    exact hlookb g hg
  · simp only [Function.update_noteq hcb]
    rw [hashInv_look_other hinv hb hframe hc hcb g, hlook c hc g hg]
    symm
    apply hother
    rw [hg]
    exact_mod_cast hcb


/-! ## Insertion into the hashed map -/

theorem map_one_hash_rep {s : Atom} {al : List (Int × Int)} (g v : Int)
    (hrep : HashRep s al) (hg : 0 ≤ Int.tmod g s.map_nbucket)
    (hfit : (alSet g v al).length ≤ s.map_hash.length) :
    ∃ s2, map_one_hash s g v = some s2 ∧ HashRep s2 (alSet g v al) ∧ HashFrame s s2 := by
  obtain ⟨chains, free, hinv, hlook, hcount, hnd⟩ := hrep
  obtain ⟨b, hb, hbc, hib⟩ := hinv.bucket hg
  obtain ⟨h, hh, hch⟩ := hinv.chain b hb
  have hsearch := map_search_loop_chain s.map_hash g (chains b) _ (-1) h hch
    (hinv.chain_length hb)
  have halloc := seg_alloc hch
  have hother : ∀ g2, Int.tmod g2 s.map_nbucket ≠ (b : Int) →
      alFind g2 (alSet g v al) = alFind g2 al := by
    intro g2 hg2
    rw [alFind_alSet]
    have : g2 ≠ g := by
      intro heq; subst heq; exact hg2 hbc.symm
    simp [this]
  have hnd2 := alSet_keys_nodup g v al hnd
  rcases searchSpec_cases s.map_hash g (chains b) (-1) halloc with
    ⟨l1, i, l2, e, hl, he, hk, hno, hs⟩ | ⟨hno, hs⟩
  · -- the key is in the table: overwrite its slot
    have hilt : i < s.map_hash.length := get_lt_of_some he
    have himem : i ∈ chains b := by rw [hl]; simp
    have hipos : ((i : Int) > -1) := by omega
    refine ⟨{ s with map_hash := s.map_hash.set i { e with local_ := v } }, ?_, ?_, ?_⟩
    · simp only [map_one_hash, hib, readAt_nat, hh, hsearch, hs, hipos, if_true, he,
        writeAt_nat _ _ _ hilt]
    · have hkey : ∀ j, keyOf (s.map_hash.set i { e with local_ := v }) j = keyOf s.map_hash j := by
        intro j
        by_cases hji : j = i
        · subst hji
          simp [keyOf, get_set_self _ hilt, he]
        · simp [keyOf, get_set_other _ hji]
      have hnext : ∀ j, nextOf (s.map_hash.set i { e with local_ := v }) j = nextOf s.map_hash j := by
        intro j
        by_cases hji : j = i
        · subst hji
          simp [nextOf, get_set_self _ hilt, he]
        · simp [nextOf, get_set_other _ hji]
      have hfound : chainFind s.map_hash g (chains b) = some e.local_ := by
        have := chainFind_of_mem (hinv.keys b hb) himem he
        rwa [hk] at this
      have hal : alFind g al ≠ none := by
        rw [← hlook b hb g hbc.symm, hfound]; simp
      refine hashRep_update s _ hinv hlook hb rfl rfl (by simp) (fun c _ _ => rfl) ?_
        ⟨h, hh, seg_congr (fun j _ => hnext j) hch⟩
        (seg_congr (fun j _ => hnext j) hinv.free_chain) hinv.free_nodup
        (hinv.disj b hb) (fun j hj => Or.inl hj) ?_ ?_ ?_ hnd2 ?_ hother
      · intro j hj _
        have hji : j ≠ i := fun heq => hj (heq ▸ himem)
        exact get_set_other _ hji
      · intro j hj
        simp only [hkey]
        exact hinv.home b hb j hj
      · have : (chains b).map (keyOf (s.map_hash.set i { e with local_ := v })) =
            (chains b).map (keyOf s.map_hash) :=
          List.map_congr_left (fun j _ => hkey j)
        simp only [this]
        exact hinv.keys b hb
      · rw [alSet_length]
        simp only [hal, if_false]
        exact hcount
      · intro g2 hg2
        rw [alFind_alSet]
        by_cases hgg : g2 = g
        · subst hgg
          simp only [if_true]
          have hk2 : ((chains b).map (keyOf (s.map_hash.set i { e with local_ := v }))).Nodup := by
            have : (chains b).map (keyOf (s.map_hash.set i { e with local_ := v })) =
                (chains b).map (keyOf s.map_hash) :=
              List.map_congr_left (fun j _ => hkey j)
            rw [this]; exact hinv.keys b hb
          have := chainFind_of_mem hk2 himem (get_set_self { e with local_ := v } hilt)
          simpa [hk] using this
        · simp only [hgg, if_false]
          rw [← hlook b hb g2 hg2]
          apply chainFind_congr_kv
          intro j _
          by_cases hji : j = i
          · subst hji
            right
            rw [hkey, keyOf_of_get he, hk]
            exact ⟨fun h2 => hgg (Option.some.inj h2).symm,
              fun h2 => hgg (Option.some.inj h2).symm⟩
          · left
            exact kvOf_eq_of_get (get_set_other _ hji)
    · exact ⟨rfl, rfl, by simp⟩
  · -- the key is new: take the first free entry and link it at the end
    have hnone : chainFind s.map_hash g (chains b) = none := chainFind_eq_none.mpr hno
    have hal : alFind g al = none := by rw [← hlook b hb g hbc.symm, hnone]
    have hlen2 : (alSet g v al).length = al.length + 1 := by
      rw [alSet_length]; simp [hal]
    cases hfr : free with
    | nil =>
      rw [hfr] at hcount
      simp at hcount
      omega
    | cons f free2 =>
      have hfc := hinv.free_chain
      rw [hfr] at hfc
      obtain ⟨hmf, n, hn, hrest⟩ := hfc
      obtain ⟨ef, hef, hefn⟩ := nextOf_eq_some hn
      have hflt : f < s.map_hash.length := get_lt_of_some hef
      have hfnd := hinv.free_nodup
      rw [hfr, List.nodup_cons] at hfnd
      have hfmem : f ∈ free := by rw [hfr]; simp
      have hfb : f ∉ chains b := fun hc => hinv.disj b hb f hc hfmem
      have hneg : ¬ ((-1 : Int) > -1) := by omega
      have hcount2 : free2.length + (alSet g v al).length = s.map_hash.length := by
        rw [hlen2]; rw [hfr] at hcount; simp at hcount; omega
      have hsub : ∀ j ∈ free2, j ∈ free ∨ j ∈ chains b := by
        intro j hj; left; rw [hfr]; exact List.mem_cons_of_mem _ hj
      -- facts shared by the two ways of linking the new entry
      have finish : ∀ (s2 : Atom), s2.map_nbucket = s.map_nbucket →
          s2.map_bucket.length = s.map_bucket.length →
          s2.map_hash.length = s.map_hash.length →
          (∀ c, c < s.map_bucket.length → c ≠ b → s2.map_bucket[c]? = s.map_bucket[c]?) →
          (∀ j, j ≠ f → kvOf s2.map_hash j = kvOf s.map_hash j) →
          (∀ j, j ∉ chains b → j ≠ f → s2.map_hash[j]? = s.map_hash[j]?) →
          s2.map_hash[f]? = some { global := g, local_ := v, next := -1 } →
          (∃ h2, s2.map_bucket[b]? = some h2 ∧
            Chain (nextOf s2.map_hash) h2 (chains b ++ [f])) →
          s2.map_free = n →
          HashRep s2 (alSet g v al) := by
        intro s2 e1 e2 e3 e4 hkv e5 e6 e7 e8
        have hkey : ∀ j ∈ chains b, keyOf s2.map_hash j = keyOf s.map_hash j := by
          intro j hj
          exact keyOf_eq_of_kvOf (hkv j (fun heq => hfb (heq ▸ hj)))
        have hkf : keyOf s2.map_hash f = some g := by rw [keyOf_of_get e6]
        refine hashRep_update s s2 hinv hlook hb e1 e2 e3 e4 ?_ e7 ?_ hfnd.2 ?_ hsub ?_ ?_
          hcount2 hnd2 ?_ hother
        · intro j hj1 hj2
          exact e5 j hj1 (fun heq => hj2 (heq ▸ hfmem))
        · rw [e8]
          apply seg_frame ?_ hrest
          intro j hj
          apply e5 j
          · intro hc
            exact hinv.disj b hb j hc (by rw [hfr]; exact List.mem_cons_of_mem _ hj)
          · intro heq; subst heq; exact hfnd.1 hj
        · intro j hj
          rcases List.mem_append.mp hj with hj | hj
          · intro hc
            exact hinv.disj b hb j hj (by rw [hfr]; exact List.mem_cons_of_mem _ hc)
          · simp only [List.mem_singleton] at hj
            subst hj; exact hfnd.1
        · intro j hj
          rcases List.mem_append.mp hj with hj | hj
          · rw [hkey j hj]; exact hinv.home b hb j hj
          · simp only [List.mem_singleton] at hj
            subst hj
            exact ⟨g, hkf, hbc.symm⟩
        · rw [List.map_append, List.map_congr_left hkey]
          simp only [List.map_cons, List.map_nil]
          apply List.Nodup.append (hinv.keys b hb) (List.nodup_singleton _)
          intro k hk1 hk2
          simp only [List.mem_singleton] at hk2
          subst hk2
          rw [hkf] at hk1
          obtain ⟨j, hj, hjk⟩ := List.mem_map.mp hk1
          exact hno j hj hjk
        · intro g2 hg2
          rw [chainFind_append, alFind_alSet]
          have h1 : chainFind s2.map_hash g2 (chains b) = chainFind s.map_hash g2 (chains b) := by
            apply chainFind_congr_kv
            intro j hj
            left
            exact hkv j (fun heq => hfb (heq ▸ hj))
          rw [h1]
          by_cases hgg : g2 = g
          · subst hgg
            simp [hnone, chainFind, e6]
          · rw [hlook b hb g2 hg2]
            have : g ≠ g2 := fun h2 => hgg h2.symm
            cases alFind g2 al <;> simp [chainFind, e6, hgg, this]
      rcases List.eq_nil_or_concat (chains b) with hnil | ⟨l0, p, hcat⟩
      · -- empty bucket: the bucket head points to the new entry
        rw [hnil] at hs
        refine ⟨{ s with map_bucket := s.map_bucket.set b f,
                         map_hash := s.map_hash.set f { global := g, local_ := v, next := -1 },
                         map_free := ef.next, map_nused := s.map_nused + 1 }, ?_, ?_, ?_⟩
        · simp only [map_one_hash, hib, readAt_nat, hh, hsearch, hnil, hs, lastOr, hneg,
            if_false, hmf, hef, if_true, writeAt_nat _ _ _ hb, writeAt_nat _ _ _ hflt]
        · refine finish _ rfl (by simp) (by simp) ?_ ?_ ?_ ?_ ?_ ?_
          · intro c _ hcb
            exact get_set_other _ hcb
          · intro j hj
            exact kvOf_eq_of_get (get_set_other _ hj)
          · intro j _ hj
            exact get_set_other _ hj
          · exact get_set_self _ hflt
          · refine ⟨(f : Int), get_set_self _ hb, ?_⟩
            rw [hnil]
            exact seg_single.mpr ⟨rfl, by simp [nextOf, get_set_self _ hflt]⟩
          · exact hefn
        · exact ⟨rfl, by simp, by simp⟩
      · -- the last entry of the chain points to the new entry
        have hcat2 : chains b = l0 ++ [p] := by rw [hcat]; simp
        have hs2 : searchSpec s.map_hash g (-1) (chains b) = ((p : Int), -1) := by
          rw [hs, hcat2, lastOr_snoc]
        have hpmem : p ∈ chains b := by rw [hcat2]; simp
        obtain ⟨ep, hep⟩ := halloc p hpmem
        have hplt : p < s.map_hash.length := get_lt_of_some hep
        have hpf : p ≠ f := fun heq => hfb (heq ▸ hpmem)
        have hpne : ¬ ((p : Int) = -1) := by omega
        have hflt1 : f < (s.map_hash.set p { ep with next := (f : Int) }).length := by
          simpa using hflt
        refine ⟨{ s with map_hash := (s.map_hash.set p { ep with next := (f : Int) }).set f
                           { global := g, local_ := v, next := -1 },
                         map_free := ef.next, map_nused := s.map_nused + 1 }, ?_, ?_, ?_⟩
        · simp only [map_one_hash, hib, readAt_nat, hh, hsearch, hs2, hneg,
            if_false, hmf, hef, hpne, hep, writeAt_nat _ _ _ hplt, writeAt_nat _ _ _ hflt1]
        · have hp2 : ((s.map_hash.set p { ep with next := (f : Int) }).set f
              { global := g, local_ := v, next := -1 })[p]? =
              some { ep with next := (f : Int) } := by
            rw [get_set_other _ hpf, get_set_self _ hplt]
          refine finish _ rfl rfl (by simp) ?_ ?_ ?_ ?_ ?_ ?_
          · intro c _ _; rfl
          · intro j hj
            by_cases hjp : j = p
            · subst hjp
              simp [kvOf, hp2, hep]
            · apply kvOf_eq_of_get
              rw [get_set_other _ hj, get_set_other _ hjp]
          · intro j hj1 hj2
            have hjp : j ≠ p := fun heq => hj1 (heq ▸ hpmem)
            rw [get_set_other _ hj2, get_set_other _ hjp]
          · exact get_set_self _ hflt1
          · refine ⟨h, hh, ?_⟩
            have hch2 := hch
            rw [hcat2] at hch2 ⊢
            obtain ⟨m, hm1, hm2⟩ := seg_append.mp hch2
            obtain ⟨hmp, _⟩ := seg_single.mp hm2
            have hnd0 := hinv.chain_nodup hb
            rw [hcat2] at hnd0
            have hp0 : p ∉ l0 := by
              intro hc
              have := List.nodup_append.mp hnd0
              exact this.2.2 hc (List.mem_singleton_self p)
            rw [List.append_assoc]
            refine seg_append.mpr ⟨m, ?_, ?_⟩
            · apply seg_frame ?_ hm1
              intro j hj
              have hjp : j ≠ p := fun heq => hp0 (heq ▸ hj)
              have hjf : j ≠ f := fun heq => hfb (by
                rw [hcat2]; exact List.mem_append_left _ (heq ▸ hj))
              rw [get_set_other _ hjf, get_set_other _ hjp]
            · refine ⟨hmp, (f : Int), by simp [nextOf, hp2], ?_⟩
              exact seg_single.mpr ⟨rfl, by simp [nextOf, get_set_self _ hflt1]⟩
          · exact hefn
        · exact ⟨rfl, rfl, by simp⟩


/-! ## Removal from the hashed map -/

theorem map_remove_hash_rep {s : Atom} {al : List (Int × Int)} (g : Int)
    (hrep : HashRep s al) (hg : 0 ≤ Int.tmod g s.map_nbucket) :
    ∃ s2, map_remove_hash s g = some s2 ∧ HashRep s2 (alDel g al) ∧ HashFrame s s2 := by
  have hrep0 := hrep
  obtain ⟨chains, free, hinv, hlook, hcount, hnd⟩ := hrep
  obtain ⟨b, hb, hbc, hib⟩ := hinv.bucket hg
  obtain ⟨h, hh, hch⟩ := hinv.chain b hb
  have hsearch := map_search_loop_chain s.map_hash g (chains b) _ (-1) h hch
    (hinv.chain_length hb)
  have halloc := seg_alloc hch
  have hother : ∀ g2, Int.tmod g2 s.map_nbucket ≠ (b : Int) →
      alFind g2 (alDel g al) = alFind g2 al := by
    intro g2 hg2
    rw [alFind_alDel]
    have : g2 ≠ g := by
      intro heq; subst heq; exact hg2 hbc.symm
    simp [this]
  have hnd2 := alDel_keys_nodup g al hnd
  rcases searchSpec_cases s.map_hash g (chains b) (-1) halloc with
    ⟨l1, i, l2, e, hl, he, hk, hno, hs⟩ | ⟨hno, hs⟩
  · -- the key is in the table: unlink its entry and put it on the free list
    have hilt : i < s.map_hash.length := get_lt_of_some he
    have himem : i ∈ chains b := by rw [hl]; simp
    have hipos : ((i : Int) > -1) := by omega
    have hndc := hinv.chain_nodup hb
    rw [hl] at hndc
    have hi1 : i ∉ l1 := by
      intro hc
      exact (List.nodup_append.mp hndc).2.2 hc (List.mem_cons_self _ _)
    have hi2 : i ∉ l2 := by
      have := (List.nodup_append.mp hndc).2.1
      exact (List.nodup_cons.mp this).1
    have hsubl : ∀ j ∈ l1 ++ l2, j ∈ chains b := by
      intro j hj
      rw [hl]
      rcases List.mem_append.mp hj with hj | hj
      · exact List.mem_append_left _ hj
      · exact List.mem_append_right _ (List.mem_cons_of_mem _ hj)
    have hfound : chainFind s.map_hash g (chains b) = some e.local_ := by
      have := chainFind_of_mem (hinv.keys b hb) himem he
      rwa [hk] at this
    have hal : alFind g al = some e.local_ := by
      rw [← hlook b hb g hbc.symm, hfound]
    have hcount2 : (i :: free).length + (alDel g al).length = s.map_hash.length := by
      have := alDel_length hnd hal
      simp only [List.length_cons]
      omega
    have hkeysl : ((l1 ++ i :: l2).map (keyOf s.map_hash)).Nodup := by
      rw [← hl]; exact hinv.keys b hb
    have hnokey : ∀ j ∈ l1 ++ l2, keyOf s.map_hash j ≠ some g := by
      intro j hj hc
      rw [List.map_append, List.map_cons] at hkeysl
      have hki : keyOf s.map_hash i = some g := by rw [keyOf_of_get he, hk]
      rcases List.mem_append.mp hj with hj | hj
      · exact hno j hj hc
      · have h2 := (List.nodup_append.mp hkeysl).2.1
        rw [List.nodup_cons] at h2
        apply h2.1
        rw [hki, ← hc]
        exact List.mem_map_of_mem _ hj
    -- facts shared by the two ways of unlinking the entry
    have finish : ∀ (s2 : Atom), s2.map_nbucket = s.map_nbucket →
        s2.map_bucket.length = s.map_bucket.length →
        s2.map_hash.length = s.map_hash.length →
        (∀ c, c < s.map_bucket.length → c ≠ b → s2.map_bucket[c]? = s.map_bucket[c]?) →
        (∀ j, kvOf s2.map_hash j = kvOf s.map_hash j) →
        (∀ j, j ∉ chains b → s2.map_hash[j]? = s.map_hash[j]?) →
        nextOf s2.map_hash i = some s.map_free →
        (∃ h2, s2.map_bucket[b]? = some h2 ∧
          Chain (nextOf s2.map_hash) h2 (l1 ++ l2)) →
        s2.map_free = (i : Int) →
        HashRep s2 (alDel g al) := by
      intro s2 e1 e2 e3 e4 hkv e5 e6 e7 e8
      have hkey : ∀ j, keyOf s2.map_hash j = keyOf s.map_hash j :=
        fun j => keyOf_eq_of_kvOf (hkv j)
      refine hashRep_update s s2 hinv hlook hb e1 e2 e3 e4 (fun j hj _ => e5 j hj) e7 ?_ ?_ ?_
        ?_ ?_ ?_ hcount2 hnd2 ?_ hother
      · rw [e8]
        refine ⟨rfl, s.map_free, e6, ?_⟩
        apply seg_frame ?_ hinv.free_chain
        intro j hj
        exact e5 j (fun hc => hinv.disj b hb j hc hj)
      · rw [List.nodup_cons]
        exact ⟨hinv.disj b hb i himem, hinv.free_nodup⟩
      · intro j hj hc
        rcases List.mem_cons.mp hc with hc | hc
        · subst hc
          rcases List.mem_append.mp hj with hj | hj
          · exact hi1 hj
          · exact hi2 hj
        · exact hinv.disj b hb j (hsubl j hj) hc
      · intro j hj
        rcases List.mem_cons.mp hj with hj | hj
        · right; rw [hj]; exact himem
        · left; exact hj
      · intro j hj
        rw [hkey]
        exact hinv.home b hb j (hsubl j hj)
      · have : (l1 ++ l2).map (keyOf s2.map_hash) = (l1 ++ l2).map (keyOf s.map_hash) :=
          List.map_congr_left (fun j _ => hkey j)
        rw [this]
        apply List.Nodup.sublist ?_ hkeysl
        apply List.Sublist.map
        exact List.Sublist.append_left (List.sublist_cons_self i l2) l1
      · intro g2 hg2
        have h1 : chainFind s2.map_hash g2 (l1 ++ l2) = chainFind s.map_hash g2 (l1 ++ l2) :=
          chainFind_congr_kv (fun j _ => Or.inl (hkv j))
        rw [h1, alFind_alDel]
        by_cases hgg : g2 = g
        · subst hgg
          simp only [if_true]
          exact chainFind_eq_none.mpr hnokey
        · simp only [hgg, if_false]
          rw [← hlook b hb g2 hg2, hl, chainFind_append, chainFind_append]
          have : e.global ≠ g2 := fun h2 => hgg (by rw [← h2, hk])
          simp [chainFind, he, this]
    rcases List.eq_nil_or_concat l1 with hnil | ⟨l0, p, hcat⟩
    · -- first entry of the bucket: the bucket head moves to the successor
      subst hnil
      have hs2 : searchSpec s.map_hash g (-1) (chains b) = (-1, (i : Int)) := by
        rw [hs]; rfl
      refine ⟨{ s with map_bucket := s.map_bucket.set b e.next,
                       map_hash := s.map_hash.set i { e with next := s.map_free },
                       map_free := (i : Int), map_nused := s.map_nused - 1 }, ?_, ?_, ?_⟩
      · simp only [map_remove_hash, hib, readAt_nat, hh, hsearch, hs2, hipos, if_true, he,
          writeAt_nat _ _ _ hb, writeAt_nat _ _ _ hilt]
      · refine finish _ rfl (by simp) (by simp) ?_ ?_ ?_ ?_ ?_ rfl
        · intro c _ hcb
          exact get_set_other _ hcb
        · intro j
          by_cases hji : j = i
          · subst hji
            simp [kvOf, get_set_self _ hilt, he]
          · exact kvOf_eq_of_get (get_set_other _ hji)
        · intro j hj
          exact get_set_other _ (fun heq => hj (heq ▸ himem))
        · simp [nextOf, get_set_self _ hilt]
        · refine ⟨e.next, get_set_self _ hb, ?_⟩
          have hch2 := hch
          rw [hl] at hch2
          obtain ⟨_, n, hn, hrest⟩ := hch2
          rw [nextOf_of_get he] at hn
          cases hn
          simp only [List.nil_append]
          apply seg_frame ?_ hrest
          intro j hj
          exact get_set_other _ (fun heq => hi2 (heq ▸ hj))
      · exact ⟨rfl, by simp, by simp⟩
    · -- mid-chain entry: the predecessor is relinked to the successor
      have hcat2 : l1 = l0 ++ [p] := by rw [hcat]; simp
      subst hcat2
      have hs2 : searchSpec s.map_hash g (-1) (chains b) = ((p : Int), (i : Int)) := by
        rw [hs, lastOr_snoc]
      have hpmem : p ∈ chains b := by rw [hl]; simp
      obtain ⟨ep, hep⟩ := halloc p hpmem
      have hplt : p < s.map_hash.length := get_lt_of_some hep
      have hpi : p ≠ i := fun heq => hi1 (by rw [← heq]; simp)
      have hpne : ¬ ((p : Int) = -1) := by omega
      have hilt1 : i < (s.map_hash.set p { ep with next := e.next }).length := by
        simpa using hilt
      have hp0 : p ∉ l0 := by
        intro hc
        have h1 := (List.nodup_append.mp hndc).1
        exact (List.nodup_append.mp h1).2.2 hc (List.mem_singleton_self p)
      have hp2 : p ∉ l2 := by
        intro hc
        exact (List.nodup_append.mp hndc).2.2 (by simp) (List.mem_cons_of_mem _ hc)
      refine ⟨{ s with map_hash := (s.map_hash.set p { ep with next := e.next }).set i
                         { e with next := s.map_free },
                       map_free := (i : Int), map_nused := s.map_nused - 1 }, ?_, ?_, ?_⟩
      · simp only [map_remove_hash, hib, readAt_nat, hh, hsearch, hs2, hipos, if_true, he,
          hpne, if_false, hep, writeAt_nat _ _ _ hplt, writeAt_nat _ _ _ hilt1]
      · have hgp : ((s.map_hash.set p { ep with next := e.next }).set i
            { e with next := s.map_free })[p]? = some { ep with next := e.next } := by
          rw [get_set_other _ hpi, get_set_self _ hplt]
        have hgo : ∀ j, j ≠ p → j ≠ i → ((s.map_hash.set p { ep with next := e.next }).set i
            { e with next := s.map_free })[j]? = s.map_hash[j]? := by
          intro j h1 h2
          rw [get_set_other _ h2, get_set_other _ h1]
        refine finish _ rfl rfl (by simp) (fun c _ _ => rfl) ?_ ?_ ?_ ?_ rfl
        · intro j
          by_cases hji : j = i
          · subst hji
            simp [kvOf, get_set_self _ hilt1, he]
          · by_cases hjp : j = p
            · subst hjp
              simp [kvOf, hgp, hep]
            · exact kvOf_eq_of_get (hgo j hjp hji)
        · intro j hj
          exact hgo j (fun heq => hj (heq ▸ hpmem)) (fun heq => hj (heq ▸ himem))
        · simp [nextOf, get_set_self _ hilt1]
        · refine ⟨h, hh, ?_⟩
          have hch2 := hch
          rw [hl] at hch2
          obtain ⟨m, hm1, hm2⟩ := seg_append.mp hch2
          obtain ⟨hmi, n, hn, hrest⟩ := hm2
          rw [nextOf_of_get he] at hn
          cases hn
          obtain ⟨m0, hm3, hm4⟩ := seg_append.mp hm1
          obtain ⟨hm0, _⟩ := seg_single.mp hm4
          refine seg_append.mpr ⟨e.next, seg_append.mpr ⟨m0, ?_, ?_⟩, ?_⟩
          · apply seg_frame ?_ hm3
            intro j hj
            exact hgo j (fun heq => hp0 (heq ▸ hj))
              (fun heq => hi1 (heq ▸ List.mem_append_left _ hj))
          · exact seg_single.mpr ⟨hm0, by simp [nextOf, hgp]⟩
          · apply seg_frame ?_ hrest
            intro j hj
            exact hgo j (fun heq => hp2 (heq ▸ hj)) (fun heq => hi2 (heq ▸ hj))
      · exact ⟨rfl, rfl, by simp⟩
  · -- the key is not in the table: nothing changes
    have hnone : chainFind s.map_hash g (chains b) = none := chainFind_eq_none.mpr hno
    have hal : alFind g al = none := by rw [← hlook b hb g hbc.symm, hnone]
    have hneg : ¬ ((-1 : Int) > -1) := by omega
    refine ⟨s, ?_, ?_, ⟨rfl, rfl, rfl⟩⟩
    · simp only [map_remove_hash, hib, readAt_nat, hh, hsearch, hs, hneg, if_false]
    · rw [alDel_of_none hal]
      exact hrep0


/-! ## Both strategies: one operation, then sequences -/

theorem readAt_set {α : Type} (a : List α) (i j : Int) (v : α)
    (hi : 0 ≤ i) (hlt : i.toNat < a.length) (hj : 0 ≤ j) :
    readAt (a.set i.toNat v) j = if j = i then some v else readAt a j := by
  unfold readAt
  simp only [hj, if_true]
  by_cases hji : j = i
  · subst hji
    simp [get_set_self _ hlt]
  · have : j.toNat ≠ i.toNat := by omega
    simp [hji, get_set_other _ this]

theorem hashFrame_shape {s s2 : Atom} (h : HashFrame s s2) : mapShape s2 = mapShape s := by
  obtain ⟨h1, h2, h3⟩ := h
  have e1 := congrArg (fun t : Atom => (t.nlocal, t.tag, t.type, t.mask, t.map_style, t.map_user,
    t.map_tag_max, t.map_maxarray, t.map_nhash, t.map_nbucket, t.map_array.length)) h1
  simp only at e1
  simp only [Prod.mk.injEq] at e1
  obtain ⟨a1, a2, a3, a4, a5, a6, a7, a8, a9, a10, a11⟩ := e1
  simp only [mapShape, a1, a2, a3, a4, a5, a6, a7, a8, a9, a10, a11, h2, h3]

theorem tmod_nonneg_of_nonneg {g : Int} (n : Int) (hg : 0 ≤ g) : 0 ≤ Int.tmod g n :=
  Int.tmod_nonneg n hg

/-- One maintenance operation on a well-formed index succeeds and has the
effect of the same operation on the set of associations. -/
theorem map_apply_rep {s : Atom} {al : List (Int × Int)} (op : MapOp)
    (hrep : MapRep s al) (hin : Indexable s op.id)
    (hfit : s.map_style = 2 → (alApply al op).length ≤ s.map_hash.length) :
    ∃ s2, map_apply s op = some s2 ∧ MapRep s2 (alApply al op) ∧ mapShape s2 = mapShape s := by
  rcases hrep with ⟨hst, hlen, hmax, hrd⟩ | ⟨hst, hrep⟩
  · -- dense strategy: a direct store
    obtain ⟨h0, h1⟩ := hin.1 hst
    have hlt : op.id.toNat < s.map_array.length := by omega
    cases op with
    | insert g v =>
      simp only [MapOp.id] at h0 h1 hlt
      refine ⟨{ s with map_array := s.map_array.set g.toNat v }, ?_, ?_, ?_⟩
      · simp [map_apply, map_one, hst, writeAt, h0, hlt]
      · left
        refine ⟨hst, by simpa using hlen, hmax, ?_⟩
        intro id hid0 hid1
        show readAt (s.map_array.set g.toNat v) id = _
        rw [readAt_set _ _ _ _ h0 hlt hid0]
        simp only [alApply, alFind_alSet]
        by_cases hig : id = g
        · simp [hig]
        · simp only [hig, if_false]
          exact hrd id hid0 hid1
      · simp [mapShape]
    | remove g =>
      simp only [MapOp.id] at h0 h1 hlt
      refine ⟨{ s with map_array := s.map_array.set g.toNat (-1) }, ?_, ?_, ?_⟩
      · simp [map_apply, map_remove, hst, writeAt, h0, hlt]
      · left
        refine ⟨hst, by simpa using hlen, hmax, ?_⟩
        intro id hid0 hid1
        show readAt (s.map_array.set g.toNat (-1)) id = _
        rw [readAt_set _ _ _ _ h0 hlt hid0]
        simp only [alApply, alFind_alDel]
        by_cases hig : id = g
        · simp [hig]
        · simp only [hig, if_false]
          exact hrd id hid0 hid1
      · simp [mapShape]
  · -- sparse strategy
    have hne : s.map_style ≠ 1 := by rw [hst]; decide
    cases op with
    | insert g v =>
      obtain ⟨s2, h1, h2, h3⟩ := map_one_hash_rep g v hrep
        (hin.2 hst) (hfit hst)
      have hsh := hashFrame_shape h3
      refine ⟨s2, ?_, ?_, hsh⟩
      · simp [map_apply, map_one, hst, h1]
      · right
        refine ⟨?_, h2⟩
        have := congrArg (fun t => t.2.2.2.2.1) hsh
        simp only [mapShape] at this
        rw [this, hst]
    | remove g =>
      obtain ⟨s2, h1, h2, h3⟩ := map_remove_hash_rep g hrep
        (hin.2 hst)
      have hsh := hashFrame_shape h3
      refine ⟨s2, ?_, ?_, hsh⟩
      · simp [map_apply, map_remove, hst, h1]
      · right
        refine ⟨?_, h2⟩
        have := congrArg (fun t => t.2.2.2.2.1) hsh
        simp only [mapShape] at this
        rw [this, hst]

theorem shape_style {s s2 : Atom} (h : mapShape s2 = mapShape s) :
    s2.map_style = s.map_style := by
  have := congrArg (fun t => t.2.2.2.2.1) h
  simpa [mapShape] using this

theorem shape_tag_max {s s2 : Atom} (h : mapShape s2 = mapShape s) :
    s2.map_tag_max = s.map_tag_max := by
  have := congrArg (fun t => t.2.2.2.2.2.2.1) h
  simpa [mapShape] using this

theorem shape_hash_length {s s2 : Atom} (h : mapShape s2 = mapShape s) :
    s2.map_hash.length = s.map_hash.length := by
  have := congrArg (fun t => t.2.2.2.2.2.2.2.2.2.2.2.2) h
  simpa [mapShape] using this

theorem shape_nbucket {s s2 : Atom} (h : mapShape s2 = mapShape s) :
    s2.map_nbucket = s.map_nbucket := by
  have := congrArg (fun t => t.2.2.2.2.2.2.2.2.2.1) h
  simpa [mapShape] using this

theorem shape_indexable {s s2 : Atom} (h : mapShape s2 = mapShape s) (id : Int) :
    Indexable s2 id ↔ Indexable s id := by
  unfold Indexable
  rw [shape_style h, shape_tag_max h, shape_nbucket h]

theorem inRange_indexable {s : Atom} {id : Int} (h : InRange s id) : Indexable s id :=
  ⟨fun hst => ⟨h.1, h.2 hst⟩, fun _ => tmod_nonneg_of_nonneg _ h.1⟩

/-- A sequence of maintenance operations on a well-formed index succeeds and
has the effect of the same sequence on the set of associations. -/
theorem map_run_rep (ops : List MapOp) :
    ∀ (s : Atom) (al : List (Int × Int)), MapRep s al →
      (∀ op ∈ ops, Indexable s op.id) →
      (s.map_style = 2 → Fits s.map_hash.length al ops) →
      ∃ s2, map_run s ops = some s2 ∧ MapRep s2 (alRun al ops) ∧
        mapShape s2 = mapShape s := by
  induction ops with
  | nil =>
    intro s al hrep _ _
    exact ⟨s, rfl, hrep, rfl⟩
  | cons op ops ih =>
    intro s al hrep hin hfit
    obtain ⟨s1, h1, h2, h3⟩ := map_apply_rep op hrep (hin op (List.mem_cons_self _ _))
      (fun hst => (hfit hst).1)
    obtain ⟨s2, h4, h5, h6⟩ := ih s1 (alApply al op) h2
      (fun o ho => (shape_indexable h3 _).mpr (hin o (List.mem_cons_of_mem _ ho)))
      (fun hst => by
        rw [shape_hash_length h3]
        exact (hfit (by rw [← shape_style h3]; exact hst)).2)
    refine ⟨s2, ?_, h5, h6.trans h3⟩
    simp [map_run, h1, h4]

/-- A lookup in a well-formed index returns the slot associated with the
identifier, or -1. -/
theorem map_rep_lookup {s : Atom} {al : List (Int × Int)} (hrep : MapRep s al)
    {id : Int} (hin : Indexable s id) :
    map s id = some ((alFind id al).getD (-1)) := by
  rcases hrep with ⟨hst, _, _, hrd⟩ | ⟨hst, hrep⟩
  · simp only [map, hst, if_true]
    exact hrd id (hin.1 hst).1 (hin.1 hst).2
  · have hne : s.map_style ≠ 1 := by rw [hst]; decide
    simp only [map, hne, hst, if_true, if_false]
    exact map_find_hash_rep hrep (hin.2 hst)

/-- The associations after a sequence of operations, read off the sequence:
the last operation about an identifier decides. -/
theorem alRun_lookup (id : Int) (ops : List MapOp) :
    ∀ al : List (Int × Int), (alFind id (alRun al ops)).getD (-1) =
      if ops.any (fun o => decide (o.id = id)) then specLookup id ops
      else (alFind id al).getD (-1) := by
  induction ops with
  | nil => intro al; simp [alRun]
  | cons op ops ih =>
    intro al
    simp only [alRun, ih, List.any_cons, specLookup]
    by_cases hany : ops.any (fun o => decide (o.id = id)) = true
    · simp [hany]
    · simp only [hany, Bool.or_false, Bool.false_eq_true, if_false, decide_eq_true_eq]
      cases op with
      | insert g v =>
        simp only [MapOp.id, alApply, alFind_alSet]
        by_cases hg : g = id
        · simp [hg]
        · have : id ≠ g := fun h => hg h.symm
          simp [hg, this]
      | remove g =>
        simp only [MapOp.id, alApply, alFind_alDel]
        by_cases hg : g = id
        · simp [hg]
        · have : id ≠ g := fun h => hg h.symm
          simp [hg, this]

theorem alRun_lookup_nil (id : Int) (ops : List MapOp) :
    (alFind id (alRun [] ops)).getD (-1) = specLookup id ops := by
  rw [alRun_lookup]
  split
  · rfl
  · rename_i h
    simp only [alFind, Option.getD_none]
    induction ops with
    | nil => rfl
    | cons op ops ih =>
      simp only [List.any_cons, Bool.or_eq_true, decide_eq_true_eq, not_or] at h
      simp only [specLookup]
      have h2 : ¬ (ops.any (fun o => decide (o.id = id)) = true) := h.2
      simp only [h2, Bool.false_eq_true, if_false]
      cases op with
      | insert g v =>
        have : g ≠ id := h.1
        simp [this]
      | remove g => rfl

theorem any_id_false {id : Int} {ops : List MapOp} (h : ∀ o ∈ ops, o.id ≠ id) :
    ops.any (fun o => decide (o.id = id)) = false := by
  rw [List.any_eq_false]
  intro o ho
  simpa using h o ho

/-- The expected lookup is the slot of the most recent insertion of `id`
when no operation on `id` follows it. -/
theorem specLookup_insert (id v : Int) (pre post : List MapOp)
    (h : ∀ o ∈ post, o.id ≠ id) :
    specLookup id (pre ++ MapOp.insert id v :: post) = v := by
  induction pre with
  | nil => simp [specLookup, any_id_false h]
  | cons o pre ih =>
    have : (pre ++ MapOp.insert id v :: post).any (fun o => decide (o.id = id)) = true := by
      rw [List.any_eq_true]
      exact ⟨MapOp.insert id v, by simp, by simp [MapOp.id]⟩
    show specLookup id (o :: (pre ++ _ :: post)) = _
    unfold specLookup
    rw [if_pos this]
    exact ih

/-- The expected lookup is -1 when the last operation on `id` is its
removal. -/
theorem specLookup_remove (id : Int) (pre post : List MapOp)
    (h : ∀ o ∈ post, o.id ≠ id) :
    specLookup id (pre ++ MapOp.remove id :: post) = -1 := by
  induction pre with
  | nil => simp [specLookup, any_id_false h]
  | cons o pre ih =>
    have : (pre ++ MapOp.remove id :: post).any (fun o => decide (o.id = id)) = true := by
      rw [List.any_eq_true]
      exact ⟨MapOp.remove id, by simp, by simp [MapOp.id]⟩
    show specLookup id (o :: (pre ++ _ :: post)) = _
    unfold specLookup
    rw [if_pos this]
    exact ih

/-- The expected lookup is -1 when no operation is about `id`. -/
theorem specLookup_untouched (id : Int) (ops : List MapOp) (h : ∀ o ∈ ops, o.id ≠ id) :
    specLookup id ops = -1 := by
  induction ops with
  | nil => rfl
  | cons o ops ih =>
    have h2 : ∀ o ∈ ops, o.id ≠ id := fun x hx => h x (List.mem_cons_of_mem _ hx)
    simp only [specLookup, any_id_false h2, Bool.false_eq_true, if_false]
    cases o with
    | insert g w =>
      have : g ≠ id := h (MapOp.insert g w) (List.mem_cons_self _ _)
      simp [this]
    | remove g => rfl

/-- An initialised, empty index is well formed and holds no association. -/
theorem mapEmpty_rep {s : Atom} (h : MapEmpty s) : MapRep s [] := by
  rcases h with ⟨hst, hlen, hmax, hrd⟩ | ⟨hst, hpos, hblen, hb, free, hfc, hfnd, hflen⟩
  · left
    exact ⟨hst, hlen, hmax, fun id h0 h1 => by simpa [alFind] using hrd id h0 h1⟩
  · right
    refine ⟨hst, fun _ => [], free, ⟨hpos, hblen, ?_, hfc, hfnd, ?_, ?_, ?_⟩, ?_, by simpa using hflen,
      by simp⟩
    · intro b hlt
      exact ⟨-1, hb b hlt, rfl⟩
    · intro b _ i hi; cases hi
    · intro b _ i hi; cases hi
    · intro b _; simp
    · intro b _ g _; rfl


/-! ## Rebuild: `map_init` leaves an empty index -/

theorem foldl_max_ge_init (l : List Int) : ∀ a : Int, a ≤ l.foldl max a := by
  induction l with
  | nil => intro a; exact le_refl a
  | cons x l ih =>
    intro a
    exact le_trans (le_max_left a x) (ih (max a x))

theorem foldl_max_ge_mem (l : List Int) : ∀ (a : Int) (x : Int), x ∈ l → x ≤ l.foldl max a := by
  induction l with
  | nil => intro a x hx; cases hx
  | cons y l ih =>
    intro a x hx
    rcases List.mem_cons.mp hx with rfl | hx
    · exact le_trans (le_max_right a x) (foldl_max_ge_init l (max a x))
    · exact ih (max a y) x hx

theorem owned_max_ge (s : Atom) {i : Nat} {id : Int} (hi : i < s.nlocal)
    (h : s.tag[i]? = some id) : id ≤ owned_max s := by
  apply foldl_max_ge_mem
  have : (s.tag.take s.nlocal)[i]? = some id := by
    rw [List.getElem?_take]; simp [hi, h]
  exact List.getElem?_mem this

theorem owned_max_ge_neg_one (s : Atom) : -1 ≤ owned_max s :=
  foldl_max_ge_init _ _

theorem chosen_style_cases (pol : MapPolicy) (s : Atom) :
    chosen_style pol s = 1 ∨ chosen_style pol s = 2 := by
  unfold chosen_style
  split
  · rename_i h
    rcases h with h | h
    · left; exact h
    · right; exact h
  · split
    · left; rfl
    · right; rfl

theorem map_style_set_eq (pol : MapPolicy) (s : Atom) (h : s.nlocal ≤ s.tag.length) :
    map_style_set pol s =
      some ({ s with map_tag_max := owned_max s, map_style := chosen_style pol s },
            decide (chosen_style pol s ≠ s.map_style)) := by
  have : ¬ s.tag.length < s.nlocal := by omega
  simp only [map_style_set, this, if_false]
  rfl

theorem thread_free_from_length (n : Nat) (es : List HashElem) :
    ∀ i, (thread_free_from n i es).length = es.length := by
  induction es with
  | nil => intro i; rfl
  | cons e es ih => intro i; simp [thread_free_from, ih]

theorem thread_free_length (hash : List HashElem) :
    (thread_free hash).length = hash.length :=
  thread_free_from_length _ _ _

theorem thread_free_from_next (n : Nat) (es : List HashElem) :
    ∀ (i j : Nat), j < es.length →
      nextOf (thread_free_from n i es) j =
        some (if i + j + 1 < n then ((i + j + 1 : Nat) : Int) else -1) := by
  induction es with
  | nil => intro i j hj; simp at hj
  | cons e es ih =>
    intro i j hj
    cases j with
    | zero => simp [thread_free_from, nextOf]
    | succ j =>
      have := ih (i + 1) j (by simpa using hj)
      simp only [nextOf, thread_free_from, List.getElem?_cons_succ] at this ⊢
      rw [this]
      have e1 : i + 1 + j + 1 = i + (j + 1) + 1 := by omega
      rw [e1]

theorem thread_free_next (hash : List HashElem) (j : Nat) (hj : j < hash.length) :
    nextOf (thread_free hash) j =
      some (if j + 1 < hash.length then ((j + 1 : Nat) : Int) else -1) := by
  have := thread_free_from_next hash.length hash 0 j hj
  simpa [thread_free] using this

/-- After threading, the free list visits the entries `i, i+1, ...` up to
the end of the table. -/
theorem thread_free_seg (hash : List HashElem) :
    ∀ (k i : Nat), i + k = hash.length →
      Seg (nextOf (thread_free hash)) (if i < hash.length then (i : Int) else -1)
        (List.range' i k) (-1) := by
  intro k
  induction k with
  | zero =>
    intro i hi
    have : ¬ i < hash.length := by omega
    simp [this, Seg]
  | succ k ih =>
    intro i hi
    have hlt : i < hash.length := by omega
    simp only [hlt, if_true, List.range'_succ]
    refine ⟨rfl, _, thread_free_next hash i hlt, ?_⟩
    exact ih (i + 1) (by omega)

theorem thread_free_chain (hash : List HashElem) :
    Chain (nextOf (thread_free hash)) (if hash.length = 0 then -1 else 0)
      (List.range hash.length) := by
  have := thread_free_seg hash hash.length 0 (by omega)
  rw [List.range_eq_range']
  by_cases h : hash.length = 0
  · simp only [h, if_true]
    simpa [h] using this
  · have hpos : 0 < hash.length := Nat.pos_of_ne_zero h
    simp only [h, if_false]
    simpa [hpos] using this

theorem readAt_replicate_append {a : List Int} {n : Nat} {id : Int} (h0 : 0 ≤ id)
    (h1 : id.toNat < n) : readAt (List.replicate n (-1) ++ a) id = some (-1) := by
  simp [readAt, h0, List.getElem?_append, h1, List.getElem?_replicate]

/-- An emptied sparse table is an empty index. -/
theorem mapEmpty_sparse (s : Atom) (hst : s.map_style = 2) (hpos : 0 < s.map_nbucket)
    (hash : List HashElem) (n : Nat) (hn : (n : Int) = s.map_nbucket) :
    MapEmpty { s with map_bucket := List.replicate n (-1), map_hash := thread_free hash,
                      map_nused := 0,
                      map_free := if hash.length = 0 then -1 else 0 } := by
  right
  refine ⟨hst, hpos, by simpa using hn, ?_, List.range hash.length, ?_, List.nodup_range _, ?_⟩
  · intro b hb
    simp only [List.length_replicate] at hb
    simp [List.getElem?_replicate, hb]
  · have := thread_free_chain hash
    simpa [thread_free_length] using this
  · simp [thread_free_length]

/-- What `map_init` leaves behind: an empty index of the selected strategy,
large enough for the owned slots, in an object whose other members are
unchanged. -/
theorem map_init_spec (pol : MapPolicy) (s : Atom) (hpol : PolicyOk pol) (hs : MapSized s)
    (htag : s.nlocal ≤ s.tag.length) :
    ∃ s1, map_init pol true s = some s1 ∧ MapEmpty s1 ∧ MapSized s1 ∧
      s1.map_style = chosen_style pol s ∧ s1.map_tag_max = owned_max s ∧
      (s1.map_style = 2 → (s.nlocal : Int) ≤ s1.map_nhash) ∧
      s1.nlocal = s.nlocal ∧ s1.tag = s.tag ∧ s1.type = s.type ∧ s1.mask = s.mask ∧
      s1.map_user = s.map_user := by
  obtain ⟨hs1, hs2, hs3, hs4⟩ := hs
  have hmax := owned_max_ge_neg_one s
  simp only [map_init, if_true, map_style_set_eq pol s htag]
  rcases chosen_style_cases pol s with hc | hc
  · -- dense strategy
    have hc2 : ¬ chosen_style pol s = 2 := by rw [hc]; decide
    simp only [hc, hc2, decide_True, decide_False, Bool.true_and, Bool.false_and,
      Bool.or_false]
    by_cases hre : ((decide ((1 : Int) ≠ s.map_style) || decide (owned_max s > s.map_maxarray))) = true
    · simp only [hre, if_true]
      refine ⟨_, rfl, ?_, ?_, rfl, rfl, by simp [map_delete], rfl, rfl, rfl, rfl, rfl⟩
      · left
        refine ⟨rfl, ?_, le_refl _, ?_⟩
        · simp only [List.length_replicate]
          omega
        · intro id h0 h1
          have h1 : id ≤ owned_max s := h1
          have := @readAt_replicate_append [] (owned_max s + 1).toNat id h0 (by omega)
          simpa using this
      · refine ⟨by simp, by simp [map_delete], by simp [map_delete], by simp [map_delete]⟩
    · simp only [hre, Bool.false_eq_true, if_false, hs1, if_true]
      simp only [Bool.or_eq_true, decide_eq_true_eq, not_or, not_lt, ne_eq, not_not] at hre
      obtain ⟨hre1, hre2⟩ := hre
      have hre2 : owned_max s ≤ s.map_maxarray := by omega
      refine ⟨_, rfl, ?_, ?_, rfl, rfl, by simp [hc], rfl, rfl, rfl, rfl, rfl⟩
      · left
        refine ⟨rfl, ?_, hre2, ?_⟩
        · simp only [List.length_append, List.length_replicate, List.length_drop, hs1]
          omega
        · intro id h0 h1
          have h1 : id ≤ owned_max s := h1
          exact readAt_replicate_append h0 (by omega)
      · refine ⟨?_, hs2, hs3, by simp [hc]⟩
        simp only [List.length_append, List.length_replicate, List.length_drop, hs1]
        omega
  · -- sparse strategy
    have hc1 : ¬ chosen_style pol s = 1 := by rw [hc]; decide
    have hc1b : ¬ (2 : Int) = 1 := by decide
    simp only [hc, hc1b, decide_True, decide_False, Bool.true_and, Bool.false_and,
      Bool.or_false, if_false, if_true]
    by_cases hre : ((decide ((2 : Int) ≠ s.map_style) || decide ((s.nlocal : Int) > s.map_nhash))) = true
    · simp only [hre, if_true]
      refine ⟨_, rfl, ?_, ?_, rfl, rfl, ?_, rfl, rfl, rfl, rfl, rfl⟩
      · have := mapEmpty_sparse
          { map_delete { s with map_tag_max := owned_max s, map_style := 2 } with
              map_nhash := (pol.nhash s.nlocal : Int),
              map_nbucket := (pol.nbucket (pol.nhash s.nlocal) : Int) } rfl
          (by simpa using hpol.2 (pol.nhash s.nlocal))
          (List.replicate (pol.nhash s.nlocal) ⟨0, 0, 0⟩)
          (pol.nbucket (pol.nhash s.nlocal)) rfl
        simpa using this
      · refine ⟨by simp [map_delete], by simp, by simp [thread_free_length], ?_⟩
        intro _
        simpa using hpol.2 (pol.nhash s.nlocal)
      · intro _
        show (s.nlocal : Int) ≤ (pol.nhash s.nlocal : Int)
        exact_mod_cast hpol.1 s.nlocal
    · simp only [hre, Bool.false_eq_true, if_false, hs2, hs3, and_self, if_true]
      simp only [Bool.or_eq_true, decide_eq_true_eq, not_or, not_lt, ne_eq, not_not] at hre
      obtain ⟨hre1, hre2⟩ := hre
      have hpos : 0 < s.map_nbucket := hs4 hre1.symm
      refine ⟨_, rfl, ?_, ?_, rfl, rfl, ?_, rfl, rfl, rfl, rfl, rfl⟩
      · have := mapEmpty_sparse { s with map_tag_max := owned_max s, map_style := 2 } rfl hpos
          s.map_hash s.map_nbucket.toNat (by simp; omega)
        simp only [hs3] at this
        exact this
      · refine ⟨hs1, by simp [hs2], by simp [thread_free_length, hs3], fun _ => hpos⟩
      · intro _
        exact hre2


/-- When the strategy is kept and the allocation is large enough, `map_init`
reuses it: the dense array keeps its entries beyond `map_tag_max`, the
sparse table keeps its buckets. -/
theorem map_init_reuse (pol : MapPolicy) (s s1 : Atom) (htag : s.nlocal ≤ s.tag.length)
    (h : map_init pol true s = some s1) (hst : s.map_style = chosen_style pol s) :
    (s.map_style = 1 → owned_max s ≤ s.map_maxarray →
      ∀ j : Nat, owned_max s < (j : Int) → s1.map_array[j]? = s.map_array[j]?) ∧
    (s.map_style = 2 → (s.nlocal : Int) ≤ s.map_nhash → s1.map_nbucket = s.map_nbucket) := by
  have hmax := owned_max_ge_neg_one s
  simp only [map_init, if_true, map_style_set_eq pol s htag, ← hst] at h
  constructor
  · intro h1 h2 j hj
    have h3 : ¬ ((1 : Int) = 2) := by decide
    have h4 : ¬ (owned_max s > s.map_maxarray) := by omega
    simp only [h1, h3, h4, ne_eq, not_true_eq_false, decide_False, decide_True,
      Bool.false_and, Bool.true_and, Bool.or_false, Bool.false_or, Bool.false_eq_true,
      if_false, if_true] at h
    split at h
    · cases h
      show (List.replicate (owned_max s + 1).toNat (-1) ++
        s.map_array.drop (owned_max s + 1).toNat)[j]? = _
      have hlt : ¬ j < (owned_max s + 1).toNat := by omega
      rw [List.getElem?_append]
      simp only [List.length_replicate, hlt, if_false, List.getElem?_drop]
      congr 1
      omega
    · cases h
  · intro h1 h2
    have h3b : ¬ ((2 : Int) = 1) := by decide
    have h4 : ¬ ((s.nlocal : Int) > s.map_nhash) := by omega
    simp only [h1, h3b, h4, ne_eq, not_true_eq_false, decide_False, decide_True,
      Bool.false_and, Bool.true_and, Bool.or_false, Bool.false_or, Bool.false_eq_true,
      if_false, if_true] at h
    split at h
    · cases h
      rfl
    · cases h

/-! ## Rebuild: `map_set` fills the index from the owned slots -/

theorem shape_tag {s s2 : Atom} (h : mapShape s2 = mapShape s) : s2.tag = s.tag := by
  have := congrArg (fun t => t.2.1) h
  simpa [mapShape] using this

theorem shape_nlocal {s s2 : Atom} (h : mapShape s2 = mapShape s) : s2.nlocal = s.nlocal := by
  have := congrArg (fun t => t.1) h
  simpa [mapShape] using this

theorem shape_type {s s2 : Atom} (h : mapShape s2 = mapShape s) : s2.type = s.type := by
  have := congrArg (fun t => t.2.2.1) h
  simpa [mapShape] using this

theorem shape_mask {s s2 : Atom} (h : mapShape s2 = mapShape s) : s2.mask = s.mask := by
  have := congrArg (fun t => t.2.2.2.1) h
  simpa [mapShape] using this

theorem shape_user {s s2 : Atom} (h : mapShape s2 = mapShape s) :
    s2.map_user = s.map_user := by
  have := congrArg (fun t => t.2.2.2.2.2.1) h
  simpa [mapShape] using this

theorem shape_maxarray {s s2 : Atom} (h : mapShape s2 = mapShape s) :
    s2.map_maxarray = s.map_maxarray := by
  have := congrArg (fun t => t.2.2.2.2.2.2.2.1) h
  simpa [mapShape] using this

theorem shape_nhash {s s2 : Atom} (h : mapShape s2 = mapShape s) :
    s2.map_nhash = s.map_nhash := by
  have := congrArg (fun t => t.2.2.2.2.2.2.2.2.1) h
  simpa [mapShape] using this

theorem shape_array_length {s s2 : Atom} (h : mapShape s2 = mapShape s) :
    s2.map_array.length = s.map_array.length := by
  have := congrArg (fun t => t.2.2.2.2.2.2.2.2.2.2.1) h
  simpa [mapShape] using this

theorem shape_bucket_length {s s2 : Atom} (h : mapShape s2 = mapShape s) :
    s2.map_bucket.length = s.map_bucket.length := by
  have := congrArg (fun t => t.2.2.2.2.2.2.2.2.2.2.2.1) h
  simpa [mapShape] using this

theorem shape_sized {s s2 : Atom} (h : mapShape s2 = mapShape s) (hs : MapSized s) :
    MapSized s2 := by
  unfold MapSized
  rw [shape_array_length h, shape_maxarray h, shape_bucket_length h, shape_nbucket h,
    shape_hash_length h, shape_nhash h, shape_style h]
  exact hs

/-- In the dense strategy an insertion writes one array entry. -/
theorem map_one_array_frame {s s1 : Atom} {g v : Int} (hst : s.map_style = 1)
    (h : map_one s g v = some s1) (j : Nat) (hj : (j : Int) ≠ g) :
    s1.map_array[j]? = s.map_array[j]? := by
  simp only [map_one, hst, if_true, writeAt] at h
  by_cases hc : 0 ≤ g ∧ g.toNat < s.map_array.length
  · simp only [hc, and_self, if_true, Option.some.injEq] at h
    subst h
    apply get_set_other
    intro heq
    apply hj
    rw [heq]
    exact Int.toNat_of_nonneg hc.1
  · simp [hc] at h

/-- The loop of `map_set` over the slots below `n`: it succeeds when these
slots hold distinct identifiers that the index is set up for and does not
track yet, and it associates each of them with its slot. -/
theorem map_set_loop_rep : ∀ (n : Nat) (s : Atom) (al : List (Int × Int)),
    MapRep s al →
    (∀ i, i < n → ∃ id, s.tag[i]? = some id ∧ Indexable s id ∧ alFind id al = none) →
    (∀ i j, i < n → j < n → s.tag[i]? = s.tag[j]? → i = j) →
    (s.map_style = 2 → al.length + n ≤ s.map_hash.length) →
    ∃ s2 al2, map_set_loop n s = some s2 ∧ MapRep s2 al2 ∧ mapShape s2 = mapShape s ∧
      (∀ i, i < n → ∀ id, s.tag[i]? = some id → alFind id al2 = some (i : Int)) ∧
      (∀ id, (∀ i, i < n → s.tag[i]? ≠ some id) → alFind id al2 = alFind id al) ∧
      (s.map_style = 1 → ∀ j : Nat, (∀ i, i < n → s.tag[i]? ≠ some (j : Int)) →
        s2.map_array[j]? = s.map_array[j]?) := by
  intro n
  induction n with
  | zero =>
    intro s al hrep _ _ _
    refine ⟨s, al, rfl, hrep, rfl, ?_, fun _ _ => rfl, fun _ _ _ => rfl⟩
    intro i hi; omega
  | succ n ih =>
    intro s al hrep hall hinj hcap
    obtain ⟨id, htag, hin, hnone⟩ := hall n (Nat.lt_succ_self n)
    have hlook : map s id = some (-1) := by
      rw [map_rep_lookup hrep hin, hnone]; rfl
    have hlen : (alSet id (n : Int) al).length = al.length + 1 := by
      rw [alSet_length]; simp [hnone]
    obtain ⟨s1, h1, h2, h3⟩ := map_apply_rep (.insert id (n : Int)) hrep hin
      (fun hst => by
        show (alSet id (n : Int) al).length ≤ _
        rw [hlen]; have := hcap hst; omega)
    have h1b : map_one s id (n : Int) = some s1 := h1
    have htg : s1.tag = s.tag := shape_tag h3
    have hne : ∀ i, i < n → s.tag[i]? ≠ some id := by
      intro i hi hc
      have := hinj i n (by omega) (Nat.lt_succ_self n) (by rw [hc, htag])
      omega
    obtain ⟨s2, al2, h4, h5, h6, h7, h8, h9⟩ := ih s1 (alSet id (n : Int) al) h2
      (by
        intro i hi
        obtain ⟨id2, ht2, hin2, hn2⟩ := hall i (by omega)
        refine ⟨id2, by rw [htg]; exact ht2, (shape_indexable h3 id2).mpr hin2, ?_⟩
        rw [alFind_alSet]
        have : id2 ≠ id := by
          intro heq; subst heq; exact hne i hi ht2
        simp [this, hn2])
      (by
        intro i j hi hj hij
        rw [htg] at hij
        exact hinj i j (by omega) (by omega) hij)
      (by
        intro hst
        rw [hlen, shape_hash_length h3]
        have := hcap (by rw [← shape_style h3]; exact hst)
        omega)
    refine ⟨s2, al2, ?_, h5, h6.trans h3, ?_, ?_, ?_⟩
    · simp [map_set_loop, htag, hlook, h1b, h4]
    · intro i hi id2 ht2
      by_cases hin : i < n
      · exact h7 i hin id2 (by rw [htg]; exact ht2)
      · have hi2 : i = n := by omega
        subst hi2
        rw [htag] at ht2
        cases ht2
        rw [h8 id (by intro j hj; rw [htg]; exact hne j hj), alFind_alSet]
        simp
    · intro id2 hno
      rw [h8 id2 (by intro j hj; rw [htg]; exact hno j (by omega)), alFind_alSet]
      have : id2 ≠ id := by
        intro heq; subst heq; exact hno n (Nat.lt_succ_self n) htag
      simp [this]
    · intro hst j hno
      rw [h9 (by rw [shape_style h3]; exact hst) j
        (by intro i hi; rw [htg]; exact hno i (by omega))]
      apply map_one_array_frame hst h1b
      intro heq
      exact hno n (Nat.lt_succ_self n) (by rw [htag, heq])

/-- A valid owned-slot arrangement is one that a rebuild can handle. -/
theorem ownedValid_ok (pol : MapPolicy) (s : Atom) (hpol : PolicyOk pol) (hs : MapSized s)
    (hv : OwnedValid s) : OwnedOk pol s := by
  obtain ⟨hv1, hv2, hv3⟩ := hv
  refine ⟨hv1, ?_, hv3⟩
  intro s1 h1 i hi id hid
  obtain ⟨s1b, e1, _, _, _, e5, _⟩ := map_init_spec pol s hpol hs hv1
  rw [h1] at e1
  cases e1
  exact ⟨fun _ => ⟨hv2 i hi id hid, by rw [e5]; exact owned_max_ge s hi hid⟩,
    fun _ => tmod_nonneg_of_nonneg _ (hv2 i hi id hid)⟩

/-- The rebuild succeeds on owned slots that it can handle, and afterwards
the index holds exactly the pairs (identifier of slot `i`, `i`). -/
theorem map_rebuild_spec (pol : MapPolicy) (s : Atom) (hpol : PolicyOk pol)
    (hs : MapSized s) (hv : OwnedOk pol s) :
    ∃ s1 s2 al, map_init pol true s = some s1 ∧ map_set_loop s.nlocal s1 = some s2 ∧
      map_rebuild pol s = some s2 ∧
      MapRep s2 al ∧ MapSized s2 ∧ mapShape s2 = mapShape s1 ∧
      s2.map_style = chosen_style pol s ∧ s2.map_tag_max = owned_max s ∧
      s2.nlocal = s.nlocal ∧ s2.tag = s.tag ∧ s2.type = s.type ∧ s2.mask = s.mask ∧
      s2.map_user = s.map_user ∧
      (s2.map_style = 2 → (s.nlocal : Int) ≤ s2.map_nhash) ∧
      (∀ i, i < s.nlocal → ∀ id, s.tag[i]? = some id → alFind id al = some (i : Int)) ∧
      (∀ id, (∀ i, i < s.nlocal → s.tag[i]? ≠ some id) → alFind id al = none) ∧
      (s2.map_style = 1 → ∀ j : Nat, (∀ i, i < s.nlocal → s.tag[i]? ≠ some (j : Int)) →
        s2.map_array[j]? = s1.map_array[j]?) := by
  obtain ⟨hv1, hv2, hv3⟩ := hv
  obtain ⟨s1, hi1, hi2, hi3, hi4, hi5, hi6, hi7, hi8, hi9, hi10, hi11⟩ :=
    map_init_spec pol s hpol hs hv1
  obtain ⟨s2, al, h1, h2, h3, h4, h5, h6⟩ := map_set_loop_rep s.nlocal s1 []
    (mapEmpty_rep hi2)
    (by
      intro i hi
      have hlt : i < s.tag.length := by omega
      have hget : s.tag[i]? = some (s.tag.get ⟨i, hlt⟩) := List.getElem?_eq_getElem hlt
      exact ⟨s.tag.get ⟨i, hlt⟩, by rw [hi8]; exact hget, hv2 s1 hi1 i hi _ hget, rfl⟩)
    (by
      intro i j hi hj hij
      rw [hi8] at hij
      exact hv3 i j hi hj hij)
    (by
      intro hst
      have h1 := hi6 hst
      have h2 := hi3.2.2.1
      simp only [alFind, List.length_nil, zero_add]
      omega)
  refine ⟨s1, s2, al, hi1, h1, ?_, h2, shape_sized h3 hi3, h3, ?_, ?_, ?_, ?_, ?_, ?_, ?_, ?_,
    ?_, ?_, ?_⟩
  · simp [map_rebuild, hi1, map_set, hi7, h1]
  · rw [shape_style h3, hi4]
  · rw [shape_tag_max h3, hi5]
  · rw [shape_nlocal h3, hi7]
  · rw [shape_tag h3, hi8]
  · rw [shape_type h3, hi9]
  · rw [shape_mask h3, hi10]
  · rw [shape_user h3, hi11]
  · intro hst
    rw [shape_nhash h3]
    exact hi6 (by rw [← shape_style h3]; exact hst)
  · intro i hi id hid
    exact h4 i hi id (by rw [hi8]; exact hid)
  · intro id hno
    rw [h5 id (by intro i hi; rw [hi8]; exact hno i hi)]
    rfl
  · intro hst j hno
    exact h6 (by rw [← shape_style h3]; exact hst) j (by intro i hi; rw [hi8]; exact hno i hi)

/-- After a rebuild every owned identifier is looked up at its slot. -/
theorem map_rebuild_lookup (pol : MapPolicy) (s : Atom) (hpol : PolicyOk pol)
    (hs : MapSized s) (hv : OwnedValid s) :
    ∃ s2, map_rebuild pol s = some s2 ∧ MapSized s2 ∧
      s2.map_style = chosen_style pol s ∧
      s2.nlocal = s.nlocal ∧ s2.tag = s.tag ∧ s2.type = s.type ∧ s2.mask = s.mask ∧
      s2.map_user = s.map_user ∧
      ∀ i, i < s.nlocal → ∀ id, s.tag[i]? = some id → map s2 id = some (i : Int) := by
  obtain ⟨s1, s2, al, _, _, h3, h4, h5, _, h7, h8, h9, h10, h11, h12, h13, _, h15, _, _⟩ :=
    map_rebuild_spec pol s hpol hs (ownedValid_ok pol s hpol hs hv)
  refine ⟨s2, h3, h5, h7, h9, h10, h11, h12, h13, ?_⟩
  intro i hi id hid
  have hin : InRange s2 id := by
    refine ⟨hv.2.1 i hi id hid, ?_⟩
    intro _
    rw [h8]
    exact owned_max_ge s hi hid
  rw [map_rep_lookup h4 (inRange_indexable hin), h15 i hi id hid]
  rfl

/-! ## Rebuild: what a successful rebuild says about the owned slots -/

theorem map_some_indexable {s : Atom} {id j : Int} (h : map s id = some j) :
    (s.map_style = 1 → 0 ≤ id) ∧ (s.map_style = 2 → 0 ≤ Int.tmod id s.map_nbucket) := by
  constructor
  · intro hst
    simp only [map, hst, if_true] at h
    exact (readAt_eq_some h).1
  · intro hst
    have hne : ¬ s.map_style = 1 := by rw [hst]; decide
    simp only [map, hne, hst, if_true, if_false, map_find_hash, map_ibucket] at h
    by_cases hnb : s.map_nbucket = 0
    · simp [hnb] at h
    · simp only [hnb, if_false] at h
      cases hrd : readAt s.map_bucket (Int.tmod id s.map_nbucket) with
      | none => simp [hrd] at h
      | some v => exact (readAt_eq_some hrd).1

/-- When the loop of `map_set` over the slots below `n` succeeds, these
slots hold distinct identifiers that the index can handle and did not track
before. -/
theorem map_set_loop_inv : ∀ (n : Nat) (s : Atom) (al : List (Int × Int)) (s2 : Atom),
    map_set_loop n s = some s2 →
    MapRep s al →
    (∀ id v, alFind id al = some v → v ≠ -1) →
    (∀ i, i < n → ∀ id, s.tag[i]? = some id → s.map_style = 1 → id ≤ s.map_tag_max) →
    (s.map_style = 2 → al.length + n ≤ s.map_hash.length) →
    (∀ i, i < n → ∀ id, s.tag[i]? = some id → Indexable s id ∧ alFind id al = none) ∧
    (∀ i j, i < n → j < n → s.tag[i]? = s.tag[j]? → i = j) := by
  intro n
  induction n with
  | zero =>
    intro s al s2 _ _ _ _ _
    exact ⟨fun i hi => by omega, fun i j hi => by omega⟩
  | succ n ih =>
    intro s al s2 h hrep hval hmax hcap
    simp only [map_set_loop] at h
    cases htag : s.tag[n]? with
    | none => simp [htag] at h
    | some id =>
      simp only [htag] at h
      cases hlook : map s id with
      | none => simp [hlook] at h
      | some j =>
        simp only [hlook] at h
        by_cases hj : j = -1
        · subst hj
          simp only [ne_eq, not_true_eq_false, if_false] at h
          cases hone : map_one s id (n : Int) with
          | none => simp [hone] at h
          | some s1 =>
            simp only [hone] at h
            have hidx : Indexable s id := by
              obtain ⟨m1, m2⟩ := map_some_indexable hlook
              exact ⟨fun hst => ⟨m1 hst, hmax n (Nat.lt_succ_self n) id htag hst⟩, m2⟩
            have hnone : alFind id al = none := by
              have := map_rep_lookup hrep hidx
              rw [hlook] at this
              cases hf : alFind id al with
              | none => rfl
              | some v =>
                rw [hf] at this
                simp only [Option.getD_some, Option.some.injEq] at this
                exact absurd this.symm (hval id v hf)
            have hlen : (alSet id (n : Int) al).length = al.length + 1 := by
              rw [alSet_length]; simp [hnone]
            obtain ⟨s1b, e1, e2, e3⟩ := map_apply_rep (.insert id (n : Int)) hrep hidx
              (fun hst => by
                show (alSet id (n : Int) al).length ≤ _
                rw [hlen]; have := hcap hst; omega)
            have e1b : map_one s id (n : Int) = some s1b := e1
            rw [hone] at e1b
            cases e1b
            have htg : s1.tag = s.tag := shape_tag e3
            obtain ⟨r1, r2⟩ := ih s1 (alSet id (n : Int) al) s2 h e2
              (by
                intro id2 v hv
                rw [alFind_alSet] at hv
                by_cases hid : id2 = id
                · simp only [hid, if_true, Option.some.injEq] at hv
                  omega
                · simp only [hid, if_false] at hv
                  exact hval id2 v hv)
              (by
                intro i hi id2 hid2 hst
                rw [shape_tag_max e3]
                exact hmax i (by omega) id2 (by rw [← htg]; exact hid2)
                  (by rw [← shape_style e3]; exact hst))
              (by
                intro hst
                rw [hlen, shape_hash_length e3]
                have := hcap (by rw [← shape_style e3]; exact hst)
                omega)
            have hlow : ∀ i, i < n → ∀ id2, s.tag[i]? = some id2 →
                Indexable s id2 ∧ alFind id2 al = none ∧ id2 ≠ id := by
              intro i hi id2 hid2
              obtain ⟨q1, q2⟩ := r1 i hi id2 (by rw [htg]; exact hid2)
              rw [alFind_alSet] at q2
              by_cases hid : id2 = id
              · simp [hid] at q2
              · simp only [hid, if_false] at q2
                exact ⟨(shape_indexable e3 id2).mp q1, q2, hid⟩
            constructor
            · intro i hi id2 hid2
              by_cases hin : i < n
              · exact ⟨(hlow i hin id2 hid2).1, (hlow i hin id2 hid2).2.1⟩
              · have : i = n := by omega
                subst this
                rw [htag] at hid2
                cases hid2
                exact ⟨hidx, hnone⟩
            · intro i j hi hj hij
              by_cases hin : i < n
              · by_cases hjn : j < n
                · exact r2 i j hin hjn (by rw [htg]; exact hij)
                · have : j = n := by omega
                  subst this
                  rw [htag] at hij
                  exact absurd rfl (hlow i hin id hij).2.2
              · have hi2 : i = n := by omega
                subst hi2
                by_cases hjn : j < i
                · rw [htag] at hij
                  exact absurd rfl (hlow j hjn id hij.symm).2.2
                · omega
        · simp [hj] at h

/-- A rebuild that succeeds was run on owned slots that it can handle. -/
theorem map_rebuild_inv (pol : MapPolicy) (s s2 : Atom) (hpol : PolicyOk pol)
    (hs : MapSized s) (h : map_rebuild pol s = some s2) : OwnedOk pol s := by
  have hcover : s.nlocal ≤ s.tag.length := by
    by_contra hc
    have hlt : s.tag.length < s.nlocal := by omega
    simp [map_rebuild, map_init, map_style_set, hlt] at h
  obtain ⟨i1, e1, e2, e3, _, e5, e6, e7, e8, _⟩ := map_init_spec pol s hpol hs hcover
  simp only [map_rebuild, e1, map_set, e7] at h
  obtain ⟨r1, r2⟩ := map_set_loop_inv s.nlocal i1 [] s2 h (mapEmpty_rep e2)
    (by intro id v hv; simp [alFind] at hv)
    (by
      intro i hi id hid _
      rw [e5]
      exact owned_max_ge s hi (by rw [← e8]; exact hid))
    (by
      intro hst
      have h1 := e6 hst
      have h2 := e3.2.2.1
      simp only [List.length_nil, zero_add]
      omega)
  refine ⟨hcover, ?_, ?_⟩
  · intro s1 h1 i hi id hid
    rw [e1] at h1
    cases h1
    exact (r1 i hi id (by rw [e8]; exact hid)).1
  · intro i j hi hj hij
    exact r2 i j hi hj (by rw [e8]; exact hij)


/-! ## Spatial sort: the bin chains -/

theorem binSlots_step (c : Nat → Int) (m k n : Nat) (hk : k < n) :
    binSlots c m k n =
      if c k = (m : Int) then k :: binSlots c m (k + 1) n else binSlots c m (k + 1) n := by
  unfold binSlots
  have : n - k = (n - (k + 1)) + 1 := by omega
  rw [this, List.range'_succ, List.filter_cons]
  by_cases h : c k = (m : Int)
  · simp [h]
  · simp [h]

theorem binSlots_mem {c : Nat → Int} {m k n i : Nat} :
    i ∈ binSlots c m k n ↔ (k ≤ i ∧ i < n) ∧ c i = (m : Int) := by
  unfold binSlots
  rw [List.mem_filter, List.mem_range']
  simp only [decide_eq_true_eq, Nat.one_mul]
  constructor
  · rintro ⟨⟨j, hj, rfl⟩, hc⟩
    exact ⟨⟨by omega, by omega⟩, hc⟩
  · rintro ⟨⟨h1, h2⟩, hc⟩
    exact ⟨⟨i - k, by omega, by omega⟩, hc⟩

theorem binSlots_nodup (c : Nat → Int) (m k n : Nat) : (binSlots c m k n).Nodup :=
  List.Nodup.filter _ (List.nodup_range' k (n - k))

theorem binSlots_length (c : Nat → Int) (m k n : Nat) : (binSlots c m k n).length ≤ n := by
  unfold binSlots
  have := List.length_filter_le (fun i => decide (c i = (m : Int))) (List.range' k (n - k))
  simp only [List.length_range'] at this
  omega

/-- The binning loop over the slots below `k` succeeds and completes the
bin chains. -/
theorem sort_bin_loop_spec (c : Nat → Int) (nbins n : Nat) :
    ∀ (k : Nat) (binhead next : List Int), k ≤ n →
      BinInv c nbins n k binhead next →
      (∀ i, i < k → 0 ≤ c i ∧ c i < (nbins : Int)) →
      ∃ bh nx, sort_bin_loop c k binhead next = some (bh, nx) ∧ BinInv c nbins n 0 bh nx := by
  intro k
  induction k with
  | zero =>
    intro binhead next _ hinv _
    exact ⟨binhead, next, rfl, hinv⟩
  | succ k ih =>
    intro binhead next hk hinv hc
    obtain ⟨hbl, hnl, hch⟩ := hinv
    obtain ⟨hc0, hc1⟩ := hc k (Nat.lt_succ_self k)
    have hm0 : (c k).toNat < nbins := by omega
    have hcast : (((c k).toNat : Nat) : Int) = c k := Int.toNat_of_nonneg hc0
    obtain ⟨h0, hh0, hch0⟩ := hch (c k).toNat hm0
    have hrd : readAt binhead (c k) = some h0 := by
      simp only [readAt, hc0, if_true]
      exact hh0
    have hklt : k < next.length := by omega
    have hw1 : writeAt next (k : Int) h0 = some (next.set k h0) := writeAt_nat _ _ _ hklt
    have hw2 : writeAt binhead (c k) (k : Int) = some (binhead.set (c k).toNat (k : Int)) := by
      simp [writeAt, hc0, hbl, hm0]
    have hframe : ∀ m, ∀ i ∈ binSlots c m (k + 1) n,
        nextAt (next.set k h0) i = nextAt next i := by
      intro m i hi
      have := (binSlots_mem.mp hi).1.1
      unfold nextAt
      exact get_set_other _ (by omega)
    have hinv2 : BinInv c nbins n k (binhead.set (c k).toNat (k : Int)) (next.set k h0) := by
      refine ⟨by simpa using hbl, by simpa using hnl, ?_⟩
      intro m hm
      rw [binSlots_step c m k n (by omega)]
      by_cases hmk : c k = (m : Int)
      · have hmeq : (c k).toNat = m := by omega
        simp only [hmk, if_true]
        refine ⟨(k : Int), ?_, ?_⟩
        · rw [← hmeq]
          exact get_set_self _ (by omega)
        · refine ⟨rfl, h0, ?_, ?_⟩
          · unfold nextAt
            exact get_set_self _ hklt
          · rw [← hmeq]
            exact seg_congr (hframe (c k).toNat) hch0
      · have hmne : m ≠ (c k).toNat := by omega
        simp only [hmk, if_false]
        obtain ⟨h, hh, hchm⟩ := hch m hm
        refine ⟨h, ?_, seg_congr (hframe m) hchm⟩
        rw [get_set_other _ hmne]
        exact hh
    obtain ⟨bh, nx, h1, h2⟩ := ih _ _ (by omega) hinv2 (fun i hi => hc i (by omega))
    refine ⟨bh, nx, ?_, h2⟩
    simp only [sort_bin_loop, hrd, hw1, hw2, h1]

theorem binInv_init (c : Nat → Int) (nbins n : Nat) :
    BinInv c nbins n n (List.replicate nbins (-1)) (List.replicate n (-1)) := by
  refine ⟨by simp, by simp, ?_⟩
  intro m hm
  refine ⟨-1, by simp [List.getElem?_replicate, hm], ?_⟩
  simp [binSlots, Chain, Seg]

/-! ## Spatial sort: the walk over the bins -/

theorem sort_walk_chain_spec (next : List Int) :
    ∀ (l : List Nat) (fuel : Nat) (h : Int) (acc : List Int),
      Chain (nextAt next) h l → l.length < fuel →
      sort_walk_chain next fuel h acc = some (acc ++ l.map (fun i : Nat => (i : Int))) := by
  intro l
  induction l with
  | nil =>
    intro fuel h acc hc hf
    have hh : h = -1 := hc
    subst hh
    cases fuel with
    | zero => simp at hf
    | succ f => simp [sort_walk_chain]
  | cons i l ih =>
    intro fuel h acc hc hf
    obtain ⟨hh, n, hn, hrest⟩ := hc
    subst hh
    cases fuel with
    | zero => simp at hf
    | succ f =>
      have hpos : ((i : Int) ≥ 0) := by omega
      have hrd : readAt next (i : Int) = some n := by
        rw [readAt_nat]; exact hn
      simp only [sort_walk_chain, hpos, if_true, hrd]
      rw [ih f n _ hrest (by simpa using hf)]
      simp

theorem sort_walk_bins_spec (c : Nat → Int) (n : Nat) (next : List Int)
    (hnl : next.length = n) :
    ∀ (heads : List Int) (m0 : Nat) (acc : List Int),
      (∀ j, j < heads.length → ∃ h, heads[j]? = some h ∧
        Chain (nextAt next) h (binSlots c (m0 + j) 0 n)) →
      sort_walk_bins next heads acc =
        some (acc ++ ((List.range' m0 heads.length).flatMap
          (fun m => binSlots c m 0 n)).map (fun i : Nat => (i : Int))) := by
  intro heads
  induction heads with
  | nil => intro m0 acc _; simp [sort_walk_bins]
  | cons h heads ih =>
    intro m0 acc hall
    obtain ⟨h2, hh2, hch⟩ := hall 0 (by simp)
    simp only [List.getElem?_cons_zero, Option.some.injEq] at hh2
    subst hh2
    have hlen : (binSlots c (m0 + 0) 0 n).length < next.length + 1 := by
      have := binSlots_length c (m0 + 0) 0 n
      omega
    simp only [sort_walk_bins, sort_walk_chain_spec next _ _ _ _ hch hlen]
    rw [ih (m0 + 1) _ (by
      intro j hj
      obtain ⟨h3, hh3, hch3⟩ := hall (j + 1) (by simpa using hj)
      refine ⟨h3, by simpa using hh3, ?_⟩
      have : m0 + 1 + j = m0 + (j + 1) := by omega
      rw [this]
      exact hch3)]
    simp [List.range'_succ, List.flatMap_cons]

/-- The visiting order lists every owned slot exactly once. -/
theorem visitOrder_perm (c : Nat → Int) (nbins n : Nat)
    (hc : ∀ i, i < n → 0 ≤ c i ∧ c i < (nbins : Int)) :
    (visitOrder c nbins n).Nodup ∧ ∀ i, i ∈ visitOrder c nbins n ↔ i < n := by
  constructor
  · unfold visitOrder
    rw [List.nodup_flatMap]
    refine ⟨fun m _ => binSlots_nodup c m 0 n, ?_⟩
    apply List.Nodup.pairwise_of_forall_ne (List.nodup_range nbins)
    intro a _ b _ hab i hia hib
    have h1 := (binSlots_mem.mp hia).2
    have h2 := (binSlots_mem.mp hib).2
    apply hab
    rw [h1] at h2
    exact_mod_cast h2
  · intro i
    unfold visitOrder
    rw [List.mem_flatMap]
    constructor
    · rintro ⟨m, _, hi⟩
      exact (binSlots_mem.mp hi).1.2
    · intro hi
      obtain ⟨h0, h1⟩ := hc i hi
      refine ⟨(c i).toNat, List.mem_range.mpr (by omega), ?_⟩
      exact binSlots_mem.mpr ⟨⟨Nat.zero_le _, hi⟩, (Int.toNat_of_nonneg h0).symm⟩

theorem visitOrder_length (c : Nat → Int) (nbins n : Nat)
    (hc : ∀ i, i < n → 0 ≤ c i ∧ c i < (nbins : Int)) :
    (visitOrder c nbins n).length = n := by
  obtain ⟨hnd, hmem⟩ := visitOrder_perm c nbins n hc
  have hperm : (visitOrder c nbins n).Perm (List.range n) :=
    (List.perm_ext_iff_of_nodup hnd (List.nodup_range n)).mpr
      (fun i => by rw [hmem, List.mem_range])
  simpa using hperm.length_eq

/-- Binning and walking succeed and produce the visiting order. -/
theorem sort_permute_spec (c : Nat → Int) (nbins n : Nat)
    (hc : ∀ i, i < n → 0 ≤ c i ∧ c i < (nbins : Int)) :
    ∃ bh nx, sort_bin_loop c n (List.replicate nbins (-1)) (List.replicate n (-1)) =
        some (bh, nx) ∧
      sort_walk_bins nx bh [] = some ((visitOrder c nbins n).map (fun i : Nat => (i : Int))) := by
  obtain ⟨bh, nx, h1, hbl, hnl, hch⟩ := sort_bin_loop_spec c nbins n n _ _ (le_refl n)
    (binInv_init c nbins n) hc
  refine ⟨bh, nx, h1, ?_⟩
  rw [sort_walk_bins_spec c n nx hnl bh 0 [] (by
    intro j hj
    rw [hbl] at hj
    simpa using hch j hj)]
  simp [visitOrder, hbl, List.range_eq_range']

/-! ## Spatial sort: moving the arrays -/

theorem sort_gather_spec (a : List Int) :
    ∀ (p : List Nat), (∀ j ∈ p, j < a.length) →
      sort_gather a (p.map (fun i : Nat => (i : Int))) = some (p.map (fun j => a.getD j 0)) := by
  intro p
  induction p with
  | nil => intro _; rfl
  | cons j p ih =>
    intro h
    have hj := h j (List.mem_cons_self _ _)
    have hrd : readAt a (j : Int) = some (a.getD j 0) := by
      rw [readAt_nat, List.getElem?_eq_getElem hj]
      simp [List.getD_eq_getElem?_getD, List.getElem?_eq_getElem hj]
    simp only [List.map_cons, sort_gather, hrd, ih (fun i hi => h i (List.mem_cons_of_mem _ hi))]

/-- The moved array: the new owned slot `k` holds what the old slot `p[k]`
held. -/
theorem sort_apply_spec (a : List Int) (n : Nat) (p : List Nat) (hp : p.length = n)
    (hlt : ∀ j ∈ p, j < a.length) :
    ∃ a2, sort_apply (p.map (fun i : Nat => (i : Int))) n a = some a2 ∧
      a2.length = n + (a.length - n) ∧
      ∀ (k j : Nat), p[k]? = some j → a2[k]? = a[j]? := by
  refine ⟨p.map (fun j => a.getD j 0) ++ a.drop n, ?_, by simp [hp], ?_⟩
  · simp [sort_apply, sort_gather_spec a p hlt]
  · intro k j hk
    have hklt : k < p.length := get_lt_of_some hk
    have hjlt : j < a.length := hlt j (List.getElem?_mem hk)
    rw [List.getElem?_append]
    simp only [List.length_map, hklt, if_true, List.getElem?_map, hk, Option.map_some']
    rw [List.getElem?_eq_getElem hjlt]
    simp [List.getD_eq_getElem?_getD, List.getElem?_eq_getElem hjlt]


/-! ## Lookup: the claims about `Atom::map` -/

/-- C1, as stated, fails: in array style the lookup of an untracked
identifier outside the allocated `map_array` (7, beyond the three entries,
or -1) reads out of bounds and does not return -1. -/
theorem map_untracked_out_of_range :
    dense_small.map_style = 1 ∧ map dense_small 7 = none ∧ map dense_small (-1) = none ∧
      map dense_small 7 ≠ some (-1) := by
  decide

/-- C1, amended: `map(id)` returns the absent value -1 for every identifier
when no map is defined, and for every untracked identifier the index is set
up for: `0 ≤ id ≤ map_tag_max` in array style, `0 ≤ id` in hash style. -/
theorem map_untracked_absent (s : Atom) (al : List (Int × Int)) (id : Int)
    (hs : (s.map_style ≠ 1 ∧ s.map_style ≠ 2) ∨ (MapRep s al ∧ InRange s id))
    (habs : alFind id al = none) : map s id = some (-1) := by
  rcases hs with ⟨h1, h2⟩ | ⟨hrep, hin⟩
  · simp [map, h1, h2]
  · rw [map_rep_lookup hrep (inRange_indexable hin), habs]
    rfl

theorem sparse_small_empty : MapEmpty sparse_small := by
  right
  refine ⟨rfl, by decide, rfl, by decide, [0, 1, 2, 3], ?_, by decide, rfl⟩
  exact ⟨rfl, 1, rfl, rfl, 2, rfl, rfl, 3, rfl, rfl, -1, rfl, rfl⟩

theorem dense_small_empty : MapEmpty dense_small := by
  left
  refine ⟨rfl, rfl, by decide, ?_⟩
  intro id h0 h1
  have h1 : id ≤ 2 := h1
  have : id = 0 ∨ id = 1 ∨ id = 2 := by omega
  rcases this with rfl | rfl | rfl <;> rfl

theorem map_untracked_absent_witness :
    map sparse_small 7 = some (-1) ∧ map dense_small 2 = some (-1) ∧
      map no_map 7 = some (-1) ∧
      ∃ s2, map_run sparse_small scenario_insert = some s2 ∧ map s2 7 = some (-1) :=
  ⟨map_untracked_absent sparse_small [] 7
      (Or.inr ⟨mapEmpty_rep sparse_small_empty, by decide⟩) rfl,
   map_untracked_absent dense_small [] 2
      (Or.inr ⟨mapEmpty_rep dense_small_empty, by decide⟩) rfl,
   map_untracked_absent no_map [] 7 (Or.inl (by decide)) rfl,
   by
    obtain ⟨s2, h1, h2, h3⟩ := map_run_rep scenario_insert sparse_small []
      (mapEmpty_rep sparse_small_empty)
      (fun op hop => inRange_indexable
        ((by decide : ∀ op ∈ scenario_insert, InRange sparse_small op.id) op hop))
      (fun _ => by decide)
    have hin : InRange s2 7 :=
      ⟨by decide, fun h => by rw [shape_style h3] at h; exact absurd h (by decide)⟩
    exact ⟨s2, h1, map_untracked_absent s2 (alRun [] scenario_insert) 7
      (Or.inr ⟨h2, hin⟩) (by decide)⟩⟩

/-- C2: when no map is defined (`map_style` neither 1 nor 2), `map(global)`
returns -1 for every identifier, whatever `map_array` and the hash table
hold, allocated or not. -/
theorem map_no_style (s : Atom) (global : Int) (h1 : s.map_style ≠ 1) (h2 : s.map_style ≠ 2) :
    map s global = some (-1) ∧
    ∀ (arr bucket : List Int) (hash : List HashElem) (nbucket free : Int),
      map { s with map_array := arr, map_bucket := bucket, map_hash := hash,
                   map_nbucket := nbucket, map_free := free } global = some (-1) := by
  refine ⟨by simp [map, h1, h2], ?_⟩
  intro arr bucket hash nbucket free
  simp [map, h1, h2]

theorem map_no_style_witness :
    map no_map 5 = some (-1) ∧
    ∀ (arr bucket : List Int) (hash : List HashElem) (nbucket free : Int),
      map { no_map with map_array := arr, map_bucket := bucket, map_hash := hash,
                        map_nbucket := nbucket, map_free := free } 5 = some (-1) :=
  map_no_style no_map 5 (by decide) (by decide)

/-- C3: in array style the slot of an identifier is stored at array position
`id`: for every valid index `id` of `map_array`, `map(id)` returns exactly
`map_array[id]`, whatever the hash-table members hold. -/
theorem map_array_direct (s : Atom) (id : Int) (hst : s.map_style = 1)
    (h0 : 0 ≤ id) (hlt : id.toNat < s.map_array.length) :
    map s id = some (s.map_array.get ⟨id.toNat, hlt⟩) ∧
    ∀ (nhash nused free nbucket : Int) (bucket : List Int) (hash : List HashElem),
      map { s with map_nhash := nhash, map_nused := nused, map_free := free,
                   map_nbucket := nbucket, map_bucket := bucket, map_hash := hash } id =
        some (s.map_array.get ⟨id.toNat, hlt⟩) := by
  have hrd : readAt s.map_array id = some (s.map_array.get ⟨id.toNat, hlt⟩) := by
    simp [readAt, h0, List.getElem?_eq_getElem hlt]
  refine ⟨by simp [map, hst, hrd], ?_⟩
  intro nhash nused free nbucket bucket hash
  simp [map, hst, hrd]

theorem map_array_direct_witness :
    map ({ map_style := 1, map_array := [4, -1, 7] } : Atom) 2 = some 7 :=
  (map_array_direct { map_style := 1, map_array := [4, -1, 7] } 2 rfl (by decide)
    (by decide)).1

/-- C9: a lookup never changes the index: the object after `map(id)` is the
object before it (so `map_style`, `map_tag_max`, `map_array` and the hash
table are unchanged), and a second `map(id)` returns the same result. -/
theorem map_call_unchanged (s : Atom) (id : Int) :
    (map_call s id).2 = s ∧ (map_call s id).1 = map s id ∧
      (map_call (map_call s id).2 id).1 = (map_call s id).1 := by
  have h : (map_call s id).2 = s := by
    unfold map_call
    split
    · rfl
    · split <;> rfl
  refine ⟨h, ?_, by rw [h]⟩
  unfold map_call map
  split
  · rfl
  · split <;> rfl

theorem wrap_int_small {x : Int} (h0 : 0 ≤ x) (h1 : x < 2 ^ 31) : wrap_int x = x := by
  unfold wrap_int
  have e1 : (2 : Int) ^ 31 = 2147483648 := by norm_num
  have e2 : (2 : Int) ^ 32 = 4294967296 := by norm_num
  rw [e1] at h1
  rw [e1, e2]
  omega

/-- C10: in array style, if `map_array` holds `map_maxarray + 1` entries and
`map_tag_max ≤ map_maxarray`, then for every `id` with `0 ≤ id ≤
map_tag_max` the read `map_array[id]` of `map(id)` is in bounds: the lookup
returns the entry.  As long as `map_maxarray + 1` fits a 32-bit `int`, the
two conditions are what the getters report: `get_map_maxarray()` is the
number of entries and `get_map_size() ≤ get_map_maxarray()`. -/
theorem map_array_in_bounds (s : Atom) (id : Int) (hst : s.map_style = 1)
    (hlen : (s.map_array.length : Int) = s.map_maxarray + 1)
    (hsize : s.map_tag_max ≤ s.map_maxarray)
    (h0 : 0 ≤ id) (h1 : id ≤ s.map_tag_max) :
    id.toNat < (get_map_array s).length ∧
    (∃ v, (get_map_array s)[id.toNat]? = some v ∧ map s id = some v) ∧
    (s.map_maxarray + 1 < 2 ^ 31 →
      get_map_maxarray s = ((get_map_array s).length : Int) ∧
      get_map_size s = s.map_tag_max + 1 ∧ get_map_size s ≤ get_map_maxarray s) := by
  unfold get_map_array
  have hlt : id.toNat < s.map_array.length := by omega
  refine ⟨hlt, ⟨s.map_array.get ⟨id.toNat, hlt⟩, ?_, ?_⟩, ?_⟩
  · exact List.getElem?_eq_getElem hlt
  · simp [map, hst, readAt, h0, List.getElem?_eq_getElem hlt]
  · intro hfit
    have e1 : (2 : Int) ^ 31 = 2147483648 := by norm_num
    have a1 : get_map_maxarray s = s.map_maxarray + 1 :=
      wrap_int_small (by omega) hfit
    have a2 : get_map_size s = s.map_tag_max + 1 :=
      wrap_int_small (by omega) (by rw [e1] at hfit ⊢; omega)
    refine ⟨by rw [a1, hlen], a2, by rw [a1, a2]; omega⟩

theorem map_array_in_bounds_witness :
    (2 : Int).toNat < (get_map_array dense_small).length ∧
    (∃ v, (get_map_array dense_small)[(2 : Int).toNat]? = some v ∧
      map dense_small 2 = some v) ∧
    (dense_small.map_maxarray + 1 < 2 ^ 31 →
      get_map_maxarray dense_small = ((get_map_array dense_small).length : Int) ∧
      get_map_size dense_small = dense_small.map_tag_max + 1 ∧
      get_map_size dense_small ≤ get_map_maxarray dense_small) :=
  map_array_in_bounds dense_small 2 rfl (by decide) (by decide) (by decide) (by decide)

/-! ## Incremental maintenance -/

theorem dense_ten_empty : MapEmpty dense_ten := by
  left
  refine ⟨rfl, rfl, by decide, ?_⟩
  intro id h0 h1
  have h1 : id ≤ 9 := h1
  have : id = 0 ∨ id = 1 ∨ id = 2 ∨ id = 3 ∨ id = 4 ∨ id = 5 ∨ id = 6 ∨ id = 7 ∨ id = 8 ∨
      id = 9 := by omega
  rcases this with rfl | rfl | rfl | rfl | rfl | rfl | rfl | rfl | rfl | rfl <;> rfl

theorem sparse_two_empty : MapEmpty sparse_two := by
  right
  refine ⟨rfl, by decide, rfl, by decide, [0, 1], ?_, by decide, rfl⟩
  exact ⟨rfl, 1, rfl, rfl, -1, rfl, rfl⟩

/-- C4, as stated, fails: on an initialised dense index set up for the
identifiers 0..9, the insertion of identifier 12 and the lookups of the
identifiers 12 and -1 are out of bounds; on an initialised sparse index with
two entries the third of three insertions finds no free entry, and the
bucket of identifier -1 is negative.  In each case there is no lookup result
at all. -/
theorem map_after_operations_out_of_range :
    MapEmpty dense_ten ∧ map_run dense_ten [.insert 12 0] = none ∧
      (map_run dense_ten []).bind (fun s => map s 12) = none ∧
      (map_run dense_ten []).bind (fun s => map s (-1)) = none ∧
    MapEmpty sparse_two ∧ map_run sparse_two scenario_insert = none ∧
      map_run sparse_two [.insert (-1) 0] = none :=
  ⟨dense_ten_empty, by decide, by decide, by decide, sparse_two_empty, by decide, by decide⟩

/-- C4, amended: for every sequence of insert (`map_one(id, slot)`) and
remove operations applied to an initialised index, on identifiers the index
is set up for (`0 ≤ id ≤ map_tag_max` in array style, `0 ≤ id` in hash
style) and, in hash style, never holding more identifiers at once than
`map_hash` has entries, the sequence runs to its end and `map(id)` afterwards
returns the slot of the most recent insertion of `id` if no removal of `id`
follows it, and -1 otherwise (`id` removed last, or never inserted). -/
theorem map_after_operations (s : Atom) (ops : List MapOp) (id : Int)
    (hinit : MapEmpty s)
    (hops : ∀ op ∈ ops, InRange s op.id) (hid : InRange s id)
    (hfit : s.map_style = 2 → Fits s.map_hash.length [] ops) :
    ∃ s2, map_run s ops = some s2 ∧ map s2 id = some (specLookup id ops) ∧
      (∀ pre v post, ops = pre ++ MapOp.insert id v :: post → (∀ o ∈ post, o.id ≠ id) →
        map s2 id = some v) ∧
      (∀ pre post, ops = pre ++ MapOp.remove id :: post → (∀ o ∈ post, o.id ≠ id) →
        map s2 id = some (-1)) ∧
      ((∀ o ∈ ops, o.id ≠ id) → map s2 id = some (-1)) := by
  obtain ⟨s2, h1, h2, h3⟩ := map_run_rep ops s [] (mapEmpty_rep hinit)
    (fun op hop => inRange_indexable (hops op hop)) hfit
  have hlook : map s2 id = some (specLookup id ops) := by
    rw [map_rep_lookup h2 ((shape_indexable h3 id).mpr (inRange_indexable hid)),
      alRun_lookup_nil]
  refine ⟨s2, h1, hlook, ?_, ?_, ?_⟩
  · intro pre v post hops2 hpost
    rw [hlook, hops2, specLookup_insert id v pre post hpost]
  · intro pre post hops2 hpost
    rw [hlook, hops2, specLookup_remove id pre post hpost]
  · intro hno
    rw [hlook, specLookup_untouched id ops hno]

theorem map_after_operations_witness :
    (∃ s2, map_run sparse_small scenario_swap = some s2 ∧
      map s2 9 = some (specLookup 9 scenario_swap)) ∧
    specLookup 9 scenario_swap = 0 ∧ specLookup 5 scenario_swap = -1 ∧
    specLookup 2 scenario_insert = 1 ∧
    (map_run sparse_small scenario_insert).bind (fun s => map s 2) = some 1 ∧
    (map_run sparse_small scenario_swap).bind (fun s => map s 9) = some 0 ∧
    (map_run sparse_small scenario_swap).bind (fun s => map s 5) = some (-1) ∧
    (map_run dense_ten scenario_insert).bind (fun s => map s 2) = some 1 ∧
    (map_run dense_ten scenario_swap).bind (fun s => map s 9) = some 0 ∧
    (map_run dense_ten scenario_swap).bind (fun s => map s 5) = some (-1) := by
  obtain ⟨s2, h1, h2, _⟩ := map_after_operations sparse_small scenario_swap 9
    sparse_small_empty (by decide) (by decide) (fun _ => by decide)
  exact ⟨⟨s2, h1, h2⟩, by decide, by decide, by decide, by decide, by decide, by decide,
    by decide, by decide, by decide⟩


/-! ## Rebuild: the claims -/

theorem chosen_style_congr (pol : MapPolicy) {s s2 : Atom} (h1 : s2.map_user = s.map_user)
    (h2 : s2.tag = s.tag) (h3 : s2.nlocal = s.nlocal) :
    chosen_style pol s2 = chosen_style pol s ∧ owned_max s2 = owned_max s := by
  have : owned_max s2 = owned_max s := by simp [owned_max, h2, h3]
  exact ⟨by simp [chosen_style, h1, h3, this], this⟩

theorem map_find_hash_neg (s : Atom) (id : Int) (hnb : s.map_nbucket ≠ 0)
    (h : Int.tmod id s.map_nbucket < 0) : map_find_hash s id = none := by
  have : ¬ (0 ≤ Int.tmod id s.map_nbucket) := by omega
  simp [map_find_hash, map_ibucket, hnb, readAt, this]

theorem policy_small_ok : PolicyOk policy_small :=
  ⟨fun n => by show n ≤ 2 * n; omega, fun n => by show 0 < n + 1; omega⟩

theorem three_owned_valid : OwnedValid three_owned := by
  refine ⟨by decide, ?_, ?_⟩
  · intro i hi id hid
    have hi : i < 3 := hi
    have : i = 0 ∨ i = 1 ∨ i = 2 := by omega
    rcases this with rfl | rfl | rfl <;> (cases hid; decide)
  · intro i j hi hj hij
    have hi : i < 3 := hi
    have hj : j < 3 := hj
    have h1 : i = 0 ∨ i = 1 ∨ i = 2 := by omega
    have h2 : j = 0 ∨ j = 1 ∨ j = 2 := by omega
    rcases h1 with rfl | rfl | rfl <;> rcases h2 with rfl | rfl | rfl <;>
      first | rfl | (exfalso; revert hij; decide)

theorem three_owned_sized : MapSized three_owned :=
  ⟨rfl, rfl, rfl, by decide⟩

/-- C5: for every valid owned-slot arrangement (distinct identifiers),
building the index with the array strategy (`map_user` 1) and with the hash
strategy (`map_user` 2) both succeed, and every tracked identifier is looked
up at the same slot, its own, in the two indexes; switching the built index
to the other strategy by a rebuild keeps the lookup of every tracked
identifier. -/
theorem map_build_styles_agree (pol : MapPolicy) (s : Atom) (hpol : PolicyOk pol)
    (hs : MapSized s) (hv : OwnedValid s) :
    ∃ sa sh, map_rebuild pol { s with map_user := 1 } = some sa ∧
      map_rebuild pol { s with map_user := 2 } = some sh ∧
      sa.map_style = 1 ∧ sh.map_style = 2 ∧
      (∀ i, i < s.nlocal → ∀ id, s.tag[i]? = some id →
        map sa id = some (i : Int) ∧ map sh id = some (i : Int) ∧ map sa id = map sh id) ∧
      (∃ sh2, map_rebuild pol { sa with map_user := 2 } = some sh2 ∧ sh2.map_style = 2 ∧
        ∀ i, i < s.nlocal → ∀ id, s.tag[i]? = some id → map sh2 id = map sa id) ∧
      (∃ sa2, map_rebuild pol { sh with map_user := 1 } = some sa2 ∧ sa2.map_style = 1 ∧
        ∀ i, i < s.nlocal → ∀ id, s.tag[i]? = some id → map sa2 id = map sh id) := by
  obtain ⟨sa, ha1, ha2, ha3, ha4, ha5, _, _, _, ha9⟩ :=
    map_rebuild_lookup pol { s with map_user := 1 } hpol hs hv
  obtain ⟨sh, hh1, hh2, hh3, hh4, hh5, _, _, _, hh9⟩ :=
    map_rebuild_lookup pol { s with map_user := 2 } hpol hs hv
  have hva : OwnedValid { sa with map_user := 2 } := by
    unfold OwnedValid
    show sa.nlocal ≤ sa.tag.length ∧ _
    rw [ha4, ha5]
    exact hv
  have hvh : OwnedValid { sh with map_user := 1 } := by
    unfold OwnedValid
    show sh.nlocal ≤ sh.tag.length ∧ _
    rw [hh4, hh5]
    exact hv
  obtain ⟨sh2, hb1, _, hb3, _, _, _, _, _, hb9⟩ :=
    map_rebuild_lookup pol { sa with map_user := 2 } hpol ha2 hva
  obtain ⟨sa2, hc1, _, hc3, _, _, _, _, _, hc9⟩ :=
    map_rebuild_lookup pol { sh with map_user := 1 } hpol hh2 hvh
  refine ⟨sa, sh, ha1, hh1, ?_, ?_, ?_, ⟨sh2, hb1, ?_, ?_⟩, ⟨sa2, hc1, ?_, ?_⟩⟩
  · rw [ha3]; simp [chosen_style]
  · rw [hh3]; simp [chosen_style]
  · intro i hi id hid
    have e1 := ha9 i hi id hid
    have e2 := hh9 i hi id hid
    exact ⟨e1, e2, by rw [e1, e2]⟩
  · rw [hb3]; simp [chosen_style]
  · intro i hi id hid
    rw [ha9 i hi id hid]
    exact hb9 i (by show i < sa.nlocal; rw [ha4]; exact hi) id
      (by show sa.tag[i]? = some id; rw [ha5]; exact hid)
  · rw [hc3]; simp [chosen_style]
  · intro i hi id hid
    rw [hh9 i hi id hid]
    exact hc9 i (by show i < sh.nlocal; rw [hh4]; exact hi) id
      (by show sh.tag[i]? = some id; rw [hh5]; exact hid)

theorem map_build_styles_agree_witness :
    (∃ sa sh, map_rebuild policy_small { three_owned with map_user := 1 } = some sa ∧
      map_rebuild policy_small { three_owned with map_user := 2 } = some sh ∧
      sa.map_style = 1 ∧ sh.map_style = 2 ∧
      ∀ i, i < three_owned.nlocal → ∀ id, three_owned.tag[i]? = some id →
        map sa id = some (i : Int) ∧ map sh id = some (i : Int) ∧ map sa id = map sh id) ∧
    (map_rebuild policy_small { three_owned with map_user := 1 }).bind (fun s => map s 9) =
      some 2 ∧
    (map_rebuild policy_small { three_owned with map_user := 2 }).bind (fun s => map s 9) =
      some 2 := by
  obtain ⟨sa, sh, h1, h2, h3, h4, h5, _⟩ := map_build_styles_agree policy_small three_owned
    policy_small_ok three_owned_sized three_owned_valid
  exact ⟨⟨sa, sh, h1, h2, h3, h4, h5⟩, by decide, by decide⟩

/-- C6: rebuilding the identifier index is idempotent.  On every valid
owned-slot arrangement the rebuild (`map_init` followed by `map_set`)
succeeds; and for every arrangement (tag array and `nlocal`) on which the
rebuild succeeds, a second rebuild right after it succeeds too and gives, for
every identifier `id`, the same `map(id)` as the first. -/
theorem map_rebuild_idempotent (pol : MapPolicy) (s : Atom) (hpol : PolicyOk pol)
    (hs : MapSized s) :
    (OwnedValid s → ∃ s1, map_rebuild pol s = some s1) ∧
    ∀ s1, map_rebuild pol s = some s1 →
      ∃ s2, map_rebuild pol s1 = some s2 ∧ ∀ id, map s2 id = map s1 id := by
  constructor
  · intro hv
    obtain ⟨_, s1, _, _, _, h, _⟩ :=
      map_rebuild_spec pol s hpol hs (ownedValid_ok pol s hpol hs hv)
    exact ⟨s1, h⟩
  intro s1 hfirst
  have hok := map_rebuild_inv pol s s1 hpol hs hfirst
  obtain ⟨i1, s1b, al1, ai, _, a3, a4, a5, a6, a7, a8, a9, a10, _, _, a13, a14, a15, a16, _⟩ :=
    map_rebuild_spec pol s hpol hs hok
  rw [hfirst] at a3
  cases a3
  obtain ⟨hc1, hc2⟩ := chosen_style_congr pol a13 a10 a9
  have hcover1 : s1.nlocal ≤ s1.tag.length := by rw [a9, a10]; exact hok.1
  have hreuse : ∀ i2, map_init pol true s1 = some i2 →
      (s1.map_style = 1 → owned_max s ≤ s1.map_maxarray →
        ∀ j : Nat, owned_max s < (j : Int) → i2.map_array[j]? = s1.map_array[j]?) ∧
      (s1.map_style = 2 → (s1.nlocal : Int) ≤ s1.map_nhash →
        i2.map_nbucket = s1.map_nbucket) := by
    intro i2 h2
    have := map_init_reuse pol s1 i2 hcover1 h2 (by rw [hc1, a7])
    rw [hc2] at this
    exact this
  have hok1 : OwnedOk pol s1 := by
    refine ⟨hcover1, ?_, ?_⟩
    · intro i2 h2 i hi id hid
      rw [a9] at hi
      rw [a10] at hid
      have hidx := hok.2.1 i1 ai i hi id hid
      obtain ⟨i2b, e1, _, _, e4, e5, _⟩ := map_init_spec pol s1 hpol a5 hcover1
      rw [h2] at e1
      cases e1
      rw [hc1] at e4
      rw [hc2] at e5
      have hst12 : i1.map_style = i2.map_style := by rw [← shape_style a6, a7, e4]
      constructor
      · intro hst
        have := hidx.1 (by rw [hst12]; exact hst)
        rw [← shape_tag_max a6, a8] at this
        rw [e5]
        exact this
      · intro hst
        have hs1 : s1.map_style = 2 := by rw [a7, ← e4]; exact hst
        have := hidx.2 (by rw [hst12]; exact hst)
        rw [(hreuse i2 h2).2 hs1 (by rw [a9]; exact a14 hs1), shape_nbucket a6]
        exact this
    · intro i j hi hj hij
      rw [a9] at hi hj
      rw [a10] at hij
      exact hok.2.2 i j hi hj hij
  obtain ⟨i2, s2, al2, b1, _, b3, b4, _, b6, b7, b8, _, _, _, _, _, _, b15, b16, b17⟩ :=
    map_rebuild_spec pol s1 hpol a5 hok1
  rw [a9, a10] at b15 b16 b17
  rw [hc1] at b7
  rw [hc2] at b8
  have hst : s2.map_style = s1.map_style := by rw [b7, a7]
  have hfind : ∀ id, alFind id al2 = alFind id al1 := by
    intro id
    by_cases hex : ∃ i, i < s.nlocal ∧ s.tag[i]? = some id
    · obtain ⟨i, hi, hid⟩ := hex
      rw [b15 i hi id hid, a15 i hi id hid]
    · have hno : ∀ i, i < s.nlocal → s.tag[i]? ≠ some id :=
        fun i hi hc => hex ⟨i, hi, hc⟩
      rw [b16 id hno, a16 id hno]
  refine ⟨s2, b3, ?_⟩
  intro id
  rcases a4 with ⟨hst1, harr⟩ | ⟨hst1, hrep1⟩
  · -- dense strategy
    have hst2 : s2.map_style = 1 := by rw [hst, hst1]
    by_cases hin : 0 ≤ id ∧ id ≤ owned_max s
    · have hin1 : Indexable s1 id :=
        ⟨fun _ => ⟨hin.1, by rw [a8]; exact hin.2⟩, fun h2 => by rw [hst1] at h2; exact absurd h2 (by decide)⟩
      have hin2 : Indexable s2 id :=
        ⟨fun _ => ⟨hin.1, by rw [b8]; exact hin.2⟩, fun h2 => by rw [hst2] at h2; exact absurd h2 (by decide)⟩
      rw [map_rep_lookup b4 hin2, map_rep_lookup (Or.inl ⟨hst1, harr⟩) hin1, hfind]
    · simp only [map, hst1, hst2, if_true, readAt]
      by_cases h0 : 0 ≤ id
      · have hgt : owned_max s < id := by
          by_contra hc
          exact hin ⟨h0, by omega⟩
        have hcast : ((id.toNat : Nat) : Int) = id := Int.toNat_of_nonneg h0
        simp only [h0, if_true]
        have hnotag : ∀ i, i < s.nlocal → s.tag[i]? ≠ some ((id.toNat : Nat) : Int) := by
          intro i hi hc
          rw [hcast] at hc
          have := owned_max_ge s hi hc
          omega
        rw [b17 hst2 id.toNat hnotag]
        apply (hreuse i2 b1).1 hst1 ?_ id.toNat (by rw [hcast]; exact hgt)
        have := harr.2.1
        rw [a8] at this
        exact this
      · simp [h0]
  · -- sparse strategy
    have hst2 : s2.map_style = 2 := by rw [hst, hst1]
    have hrep2 : HashRep s2 al2 := by
      rcases b4 with ⟨h, _⟩ | ⟨_, h⟩
      · rw [hst2] at h; exact absurd h (by decide)
      · exact h
    have hnb : s2.map_nbucket = s1.map_nbucket := by
      rw [shape_nbucket b6]
      exact (hreuse i2 b1).2 hst1 (by
        have := a14 hst1
        rw [a9]
        exact this)
    have hpos : 0 < s1.map_nbucket := by
      obtain ⟨_, _, hinv, _⟩ := hrep1
      exact hinv.nbucket_pos
    have h21 : ¬ ((2 : Int) = 1) := by decide
    simp only [map, hst1, hst2, h21, if_true, if_false]
    by_cases hg : 0 ≤ Int.tmod id s1.map_nbucket
    · rw [map_find_hash_rep hrep1 hg, map_find_hash_rep hrep2 (by rw [hnb]; exact hg), hfind]
    · rw [map_find_hash_neg s1 id (ne_of_gt hpos) (by omega),
        map_find_hash_neg s2 id (by rw [hnb]; exact ne_of_gt hpos) (by rw [hnb]; omega)]

theorem map_rebuild_idempotent_witness :
    (∃ s1 s2, map_rebuild policy_small three_owned = some s1 ∧
      map_rebuild policy_small s1 = some s2 ∧ ∀ id, map s2 id = map s1 id) ∧
    (map_rebuild policy_small three_owned).bind (fun s => map s 2) = some 1 ∧
    ((map_rebuild policy_small three_owned).bind (map_rebuild policy_small)).bind
      (fun s => map s 2) = some 1 := by
  have h := map_rebuild_idempotent policy_small three_owned policy_small_ok three_owned_sized
  obtain ⟨s1, h1⟩ := h.1 three_owned_valid
  obtain ⟨s2, h2, h3⟩ := h.2 s1 h1
  exact ⟨⟨s1, s2, h1, h2, h3⟩, by decide, by decide⟩


/-! ## Spatial sort and callback registry: the claims -/

/-- C7: after `sort()` there is a permutation `perm` of the owned slots
`[0, nlocal)` (into, one-to-one and onto) such that for every owned slot `i`
the values of the per-particle arrays at the new slot `perm i` are the
pre-sort values at slot `i`, and for every identifier of an owned slot
`map(id)` returns the new slot. -/
theorem sort_permutes_owned (pol : MapPolicy) (coord2bin : Nat → Int) (s : Atom)
    (hpol : PolicyOk pol) (hs : MapSized s) (hv : OwnedValid s)
    (hattr : s.nlocal ≤ s.type.length ∧ s.nlocal ≤ s.mask.length)
    (hbin : ∀ i, i < s.nlocal → 0 ≤ coord2bin i ∧ coord2bin i < (s.nbins : Int)) :
    ∃ (s2 : Atom) (perm : Nat → Nat), sort pol coord2bin s = some s2 ∧
      s2.nlocal = s.nlocal ∧
      (∀ i, i < s.nlocal → perm i < s.nlocal) ∧
      (∀ i j, i < s.nlocal → j < s.nlocal → perm i = perm j → i = j) ∧
      (∀ k, k < s.nlocal → ∃ i, i < s.nlocal ∧ perm i = k) ∧
      (∀ i, i < s.nlocal → s2.tag[perm i]? = s.tag[i]? ∧ s2.type[perm i]? = s.type[i]? ∧
        s2.mask[perm i]? = s.mask[i]?) ∧
      (∀ i, i < s.nlocal → ∀ id, s.tag[i]? = some id →
        map s2 id = some ((perm i : Nat) : Int)) := by
  by_cases hn0 : s.nlocal = 0
  · refine ⟨s, id, by simp [sort, hn0], rfl, ?_, ?_, ?_, ?_, ?_⟩ <;>
      (intro i hi; omega)
  · obtain ⟨hv1, hv2, hv3⟩ := hv
    obtain ⟨hnd, hmem⟩ := visitOrder_perm coord2bin s.nbins s.nlocal hbin
    have hlen := visitOrder_length coord2bin s.nbins s.nlocal hbin
    obtain ⟨bh, nx, hb1, hb2⟩ := sort_permute_spec coord2bin s.nbins s.nlocal hbin
    have hplt : ∀ (a : List Int), s.nlocal ≤ a.length →
        ∀ j ∈ visitOrder coord2bin s.nbins s.nlocal, j < a.length := by
      intro a ha j hj
      have := (hmem j).mp hj
      omega
    obtain ⟨tag2, ht1, ht2, ht3⟩ := sort_apply_spec s.tag s.nlocal _ hlen (hplt _ hv1)
    obtain ⟨type2, hy1, _, hy3⟩ := sort_apply_spec s.type s.nlocal _ hlen (hplt _ hattr.1)
    obtain ⟨mask2, hm1, _, hm3⟩ := sort_apply_spec s.mask s.nlocal _ hlen (hplt _ hattr.2)
    have hget : ∀ k, k < s.nlocal → ∃ j, (visitOrder coord2bin s.nbins s.nlocal)[k]? = some j ∧
        j < s.nlocal := by
      intro k hk
      have hk2 : k < (visitOrder coord2bin s.nbins s.nlocal).length := by omega
      refine ⟨_, List.getElem?_eq_getElem hk2, ?_⟩
      exact (hmem _).mp (List.getElem_mem hk2)
    have hinjP : ∀ (k k2 j : Nat), (visitOrder coord2bin s.nbins s.nlocal)[k]? = some j →
        (visitOrder coord2bin s.nbins s.nlocal)[k2]? = some j → k = k2 := by
      intro k k2 j h1 h2
      have hk : k < (visitOrder coord2bin s.nbins s.nlocal).length := get_lt_of_some h1
      have hk2 : k2 < (visitOrder coord2bin s.nbins s.nlocal).length := get_lt_of_some h2
      rw [List.getElem?_eq_getElem hk] at h1
      rw [List.getElem?_eq_getElem hk2] at h2
      apply (List.Nodup.getElem_inj_iff hnd).mp
      rw [Option.some.inj h1, Option.some.inj h2]
    have hv2 : OwnedValid
        { s with tag := tag2, type := type2, mask := mask2, binhead := bh, next := nx,
                 permute := (visitOrder coord2bin s.nbins s.nlocal).map
                   (fun i : Nat => (i : Int)) } := by
      refine ⟨?_, ?_, ?_⟩
      · show s.nlocal ≤ tag2.length
        omega
      · intro k hk id hid
        obtain ⟨j, hj, hjn⟩ := hget k hk
        have : tag2[k]? = s.tag[j]? := ht3 k j hj
        exact hv2 j hjn id (by rw [← this]; exact hid)
      · intro k k2 hk hk2 heq
        obtain ⟨j, hj, hjn⟩ := hget k hk
        obtain ⟨j2, hj2, hjn2⟩ := hget k2 hk2
        have e1 : tag2[k]? = s.tag[j]? := ht3 k j hj
        have e2 : tag2[k2]? = s.tag[j2]? := ht3 k2 j2 hj2
        have heq2 : tag2[k]? = tag2[k2]? := heq
        rw [e1, e2] at heq2
        have := hv3 j j2 hjn hjn2 heq2
        subst this
        exact hinjP k k2 j hj hj2
    obtain ⟨s2, hr1, _, _, hr4, hr5, hr6, hr7, _, hr9⟩ :=
      map_rebuild_lookup pol
        { s with tag := tag2, type := type2, mask := mask2, binhead := bh, next := nx,
                 permute := (visitOrder coord2bin s.nbins s.nlocal).map
                   (fun i : Nat => (i : Int)) } hpol hs hv2
    have hidx : ∀ i, i < s.nlocal →
        (visitOrder coord2bin s.nbins s.nlocal).indexOf i < s.nlocal ∧
        (visitOrder coord2bin s.nbins s.nlocal)[(visitOrder coord2bin s.nbins
          s.nlocal).indexOf i]? = some i := by
      intro i hi
      have h1 : (visitOrder coord2bin s.nbins s.nlocal).indexOf i <
          (visitOrder coord2bin s.nbins s.nlocal).length :=
        List.indexOf_lt_length.mpr ((hmem i).mpr hi)
      refine ⟨by omega, ?_⟩
      rw [List.getElem?_eq_getElem h1, List.getElem_indexOf h1]
    refine ⟨s2, fun i => (visitOrder coord2bin s.nbins s.nlocal).indexOf i, ?_, hr4, ?_, ?_, ?_,
      ?_, ?_⟩
    · simp only [sort, hn0, if_false, hb1, hb2, ht1, hy1, hm1]
      exact hr1
    · intro i hi
      exact (hidx i hi).1
    · intro i j hi hj heq
      exact (List.indexOf_inj ((hmem i).mpr hi) ((hmem j).mpr hj)).mp heq
    · intro k hk
      obtain ⟨j, hj, hjn⟩ := hget k hk
      refine ⟨j, hjn, ?_⟩
      exact hinjP _ _ j (hidx j hjn).2 hj
    · intro i hi
      have h2 := (hidx i hi).2
      rw [hr5, hr6, hr7]
      exact ⟨ht3 _ i h2, hy3 _ i h2, hm3 _ i h2⟩
    · intro i hi id hid
      have h2 := (hidx i hi).2
      apply hr9 _ (hidx i hi).1 id
      show tag2[_]? = some id
      rw [ht3 _ i h2]
      exact hid

theorem sort_permutes_owned_witness :
    (∃ (s2 : Atom) (perm : Nat → Nat),
      sort policy_small two_bins three_owned = some s2 ∧
      s2.nlocal = three_owned.nlocal ∧
      (∀ i, i < three_owned.nlocal → perm i < three_owned.nlocal) ∧
      (∀ i j, i < three_owned.nlocal → j < three_owned.nlocal → perm i = perm j → i = j) ∧
      (∀ k, k < three_owned.nlocal → ∃ i, i < three_owned.nlocal ∧ perm i = k) ∧
      (∀ i, i < three_owned.nlocal → s2.tag[perm i]? = three_owned.tag[i]? ∧
        s2.type[perm i]? = three_owned.type[i]? ∧ s2.mask[perm i]? = three_owned.mask[i]?) ∧
      (∀ i, i < three_owned.nlocal → ∀ id, three_owned.tag[i]? = some id →
        map s2 id = some ((perm i : Nat) : Int))) ∧
    (sort policy_small two_bins three_owned).map (fun s => (s.permute, s.tag, s.type)) =
      some ([1, 0, 2], [2, 5, 9, 77], [20, 10, 30, 40]) ∧
    (sort policy_small two_bins three_owned).bind (fun s => map s 5) = some 1 ∧
    (sort policy_small two_bins three_owned).bind (fun s => map s 2) = some 0 :=
  ⟨sort_permutes_owned policy_small two_bins three_owned
    policy_small_ok three_owned_sized three_owned_valid ⟨by decide, by decide⟩
    (by
      intro i _
      by_cases h : i = 1
      · simp [h, three_owned, two_bins]
      · simp [h, three_owned, two_bins]), by decide, by decide, by decide⟩

/-- C8: registering a dependent that is already registered for the same
callback kind is a no-op: when `ifix` is among the registered entries of the
list of kind `flag` (0 grow, 1 restart, 2 border), `add_callback` returns
without error and the object, with all three lists and their counts, is
unchanged. -/
theorem add_callback_registered (delta : Nat) (ifix flag : Int) (s : Atom)
    (h : (flag = 0 ∧ ifix ∈ s.extra_grow.take s.nextra_grow) ∨
      (flag = 1 ∧ ifix ∈ s.extra_restart.take s.nextra_restart) ∨
      (flag = 2 ∧ ifix ∈ s.extra_border.take s.nextra_border)) :
    add_callback delta ifix flag s = some s := by
  rcases h with ⟨hf, hm⟩ | ⟨hf, hm⟩ | ⟨hf, hm⟩
  · subst hf
    simp [add_callback, add_callback_list, hm]
  · subst hf
    simp [add_callback, add_callback_list, hm]
  · subst hf
    simp [add_callback, add_callback_list, hm]

theorem add_callback_registered_witness :
    add_callback 1 7 0 two_callbacks = some two_callbacks ∧
    add_callback 1 8 2 two_callbacks = some two_callbacks :=
  ⟨add_callback_registered 1 7 0 two_callbacks (Or.inl ⟨rfl, by decide⟩),
   add_callback_registered 1 8 2 two_callbacks (Or.inr (Or.inr ⟨rfl, by decide⟩))⟩

end LAMMPS_NS
